import Mathlib

/-!
Verification of the family-graph subsystem of `src/app.py`.

The store is a list of person records.  Python strings are modelled as
lists of characters (`Str`), Python string helpers as structural
recursions over them, and Python sets of ids as duplicate-free lists.
Every definition is executable so that concrete runs can be checked by
`decide`.
-/

/-! ## Strings -/

abbrev Str := List Char

/-- ASCII whitespace, the characters stripped by the Python code. -/
def isWsCh (c : Char) : Bool := c == ' ' || c == '\t' || c == '\n' || c == '\r'

def isDigitCh (c : Char) : Bool := 48 ≤ c.toNat && c.toNat ≤ 57

/-- Python `str.lower()` (ASCII range, which is all the code relies on). -/
def strLower (s : Str) : Str := s.map Char.toLower

/-- Python `str.strip()`. -/
def strTrim (s : Str) : Str :=
  ((s.dropWhile isWsCh).reverse.dropWhile isWsCh).reverse

/-- Python `entry.isdigit()`. -/
def strIsDigit (s : Str) : Bool := !s.isEmpty && s.all isDigitCh

/-- Python `int(entry)` on an all-digit string. -/
def strToNat (s : Str) : Nat := s.foldl (fun n c => n * 10 + (c.toNat - 48)) 0

/-- Python `val.split(",")` (for nonempty `val`). -/
def splitOnComma (s : Str) : List Str :=
  s.foldr (fun c acc =>
    if c == ',' then [] :: acc
    else match acc with
      | [] => [[c]]
      | e :: es => (c :: e) :: es) [[]]

/-- Python `entry.split()`: split on whitespace runs, dropping empties. -/
def splitWs (s : Str) : List Str :=
  ((s.foldr (fun c acc =>
    if isWsCh c then [] :: acc
    else match acc with
      | [] => [[c]]
      | e :: es => (c :: e) :: es) [[]])).filter (fun e => !e.isEmpty)

/-- Lexicographic strict comparison of strings by code point. -/
def strLtB : Str → Str → Bool
  | [], [] => false
  | [], _ :: _ => true
  | _ :: _, [] => false
  | a :: as, b :: bs => a.toNat < b.toNat || (a == b && strLtB as bs)

def strLeB (a b : Str) : Bool := strLtB a b || a == b

/-! ## Data model

One person record, with the fields `add_member` in `src/app.py` writes.
The `photo` field is a nullable filename; file contents live outside the
store. -/

structure Member where
  id : Nat
  first_name : Str
  middle_name : Str
  maiden_name : Str
  other_names : Str
  last_name : Str
  suffix : Str
  birth_date : Str
  death_date : Option Str
  gender : Str
  parents : List Nat
  children : List Nat
  spouse : List Nat
  siblings : List Nat
  photo : Option Str
  bio : Str
deriving DecidableEq, Repr

/-- The ids present in the store, in store order. -/
def ids (fam : List Member) : List Nat := fam.map Member.id

/-- Python `id_to_member.get(i)` / `next((m for m in family if m["id"] == i), None)`
(under unique ids the dict lookup and this first-match lookup agree). -/
def findMember (fam : List Member) (i : Nat) : Option Member :=
  fam.find? (fun m => m.id == i)

/-- Python `max([m["id"] for m in family], default=0)`. -/
def maxId (fam : List Member) : Nat := fam.foldl (fun acc m => max acc m.id) 0

/-! ## Sibling synchronization (`sync_siblings_in_family`)

The source builds an undirected adjacency structure over all ids from
(a) explicit `siblings` entries whose target id exists in the store and
(b) co-membership under a shared `parents` entry, then computes connected
components with an explicit stack and overwrites every `siblings` list
with the sorted component minus the member itself. -/

/-- One direction of an explicit sibling entry: the record with id `x`
lists `y` in its `siblings` field. -/
def sibEntry (fam : List Member) (x y : Nat) : Bool :=
  match findMember fam x with
  | some m => m.siblings.contains y
  | none => false

/-- The records with ids `x` and `y` share at least one parent id. -/
def sharedParentB (fam : List Member) (x y : Nat) : Bool :=
  match findMember fam x, findMember fam y with
  | some mx, some my => mx.parents.any (fun p => my.parents.contains p)
  | _, _ => false

/-- The adjacency relation of the sibling graph, exactly as the dict
`adjacency` in the source relates two ids (assuming unique ids):
distinct ids both present in the store, linked by an explicit sibling
entry in either record or by some shared parent id. -/
def adjb (fam : List Member) (a b : Nat) : Bool :=
  a != b && (ids fam).contains a && (ids fam).contains b &&
    (sibEntry fam a b || sibEntry fam b a || sharedParentB fam a b)

/-- Neighbours of a node in the sibling graph (the set `adjacency[x]`). -/
def nbrs (fam : List Member) (x : Nat) : List Nat :=
  (ids fam).filter (fun y => adjb fam x y)

/-- Bound on the number of remaining iterations of the DFS while-loop:
unvisited node count weighted by the maximal stack growth per visit. -/
def dfsMeasure (fam : List Member) (visited : List Nat) (stack : List Nat) : Nat :=
  ((ids fam).filter (fun y => !visited.contains y)).length * (fam.length + 1) + stack.length

/-- The while-loop of `sync_siblings_in_family`: pop `cur`; skip it when
already visited; otherwise mark it visited, add it to the component and
push its unvisited neighbours.  The loop terminates because every
iteration either shrinks the stack or visits a new node; `fuel` is set
by the caller to the proven bound `dfsMeasure + 1`.  In the source the
stack only ever holds adjacency keys, i.e. store ids, so the extra
`cur ∈ ids` test in the skip branch never fires there. -/
def dfsLoop (fam : List Member) : Nat → List Nat → List Nat → List Nat → List Nat × List Nat
  | 0, _, visited, comp => (visited, comp)
  | _ + 1, [], visited, comp => (visited, comp)
  | fuel + 1, cur :: rest, visited, comp =>
    if visited.contains cur || !(ids fam).contains cur then
      dfsLoop fam fuel rest visited comp
    else
      dfsLoop fam fuel
        ((nbrs fam cur).filter (fun y => !(cur :: visited).contains y) ++ rest)
        (cur :: visited) (cur :: comp)

/-- `for mid in component: id_to_member[mid]["siblings"] = sorted(component - {mid})`.
The component list produced by the DFS is duplicate-free, so sorting its
restriction is exactly the sorted set difference. -/
def assignSiblings (fam : List Member) (comp : List Nat) : List Member :=
  fam.map (fun m =>
    if comp.contains m.id then
      { m with siblings := List.insertionSort (· ≤ ·) (comp.filter (fun j => j != m.id)) }
    else m)

/-- The outer loop over `adjacency.keys()` (the store ids in order). -/
def syncLoop (fam0 : List Member) : List Nat → List Nat → List Member → List Member
  | [], _, fam => fam
  | mid :: rest, visited, fam =>
    if visited.contains mid then syncLoop fam0 rest visited fam
    else
      let p := dfsLoop fam0 (dfsMeasure fam0 visited [mid] + 1) [mid] visited []
      syncLoop fam0 rest p.1 (assignSiblings fam p.2)

def sync_siblings_in_family (fam : List Member) : List Member :=
  syncLoop fam (ids fam) [] fam

/-! ## Spouse synchronization (`sync_spouses_in_family`) -/

/-- One iteration of the inner loop of `sync_spouses_in_family` for the
member with id `mid` and snapshot entry `sid`: when `sid` names an
existing record other than the member itself, append the reverse edge
there if missing; otherwise prune every invalid entry from the spouse
list of the member itself. -/
def processSid (validIds : List Nat) (mid : Nat) (f : List Member) (sid : Nat) : List Member :=
  if validIds.contains sid && sid != mid then
    f.map (fun o =>
      if o.id == sid then
        { o with spouse := if o.spouse.contains mid then o.spouse else o.spouse ++ [mid] }
      else o)
  else
    f.map (fun o =>
      if o.id == mid then
        { o with spouse := o.spouse.filter (fun i => validIds.contains i && i != o.id) }
      else o)

/-- The effect of one `processSid` iteration on a single record: because
the branch condition only inspects `sid`, `validIds` and `mid`, each
iteration acts pointwise on the store, and `processSid validIds mid f sid
= f.map (fun o => stepMember validIds mid o sid)`. -/
def stepMember (validIds : List Nat) (mid : Nat) (o : Member) (sid : Nat) : Member :=
  if validIds.contains sid && sid != mid then
    (if o.id == sid then
      { o with spouse := if o.spouse.contains mid then o.spouse else o.spouse ++ [mid] }
    else o)
  else
    (if o.id == mid then
      { o with spouse := o.spouse.filter (fun i => validIds.contains i && i != o.id) }
    else o)

/-- Processing one member: iterate over `list(m.get("spouse", []))`, the
snapshot of its spouse list taken when its turn starts. -/
def processMember (validIds : List Nat) (f : List Member) (mid : Nat) : List Member :=
  (((findMember f mid).map Member.spouse).getD []).foldl (processSid validIds mid) f

def sync_spouses_in_family (fam : List Member) : List Member :=
  (ids fam).foldl (processMember (ids fam)) fam

/-! ## Relationship computation (`get_relationship`) -/

def get_relationship (member1_id member2_id : Nat) (fam : List Member) : Str :=
  match findMember fam member1_id, findMember fam member2_id with
  | some m1, some m2 =>
    if m1.parents.contains member2_id then
      m2.first_name ++ " is a parent of ".data ++ m1.first_name
    else if m2.parents.contains member1_id then
      m1.first_name ++ " is a parent of ".data ++ m2.first_name
    else if m1.parents.any (fun p => m2.parents.contains p) then
      m1.first_name ++ " and ".data ++ m2.first_name ++ " are siblings".data
    else if m1.parents.any (fun p1 =>
        m2.parents.any (fun p2 =>
          match findMember fam p1, findMember fam p2 with
          | some g1, some g2 => g1.parents.any (fun g => g2.parents.contains g)
          | _, _ => false)) then
      m1.first_name ++ " and ".data ++ m2.first_name ++ " are cousins".data
    else if m1.spouse.contains member2_id then
      m1.first_name ++ " and ".data ++ m2.first_name ++ " are spouses".data
    else
      "No direct relationship found".data
  | _, _ => "No relationship found".data

/-! ## Identifier resolution and member creation (`add_member`) -/

/-- The relationship-kind tag passed to the resolver. -/
inductive RelType where
  | parents
  | children
  | spouse
  | siblings
deriving DecidableEq, Repr

/-- The placeholder record minted for an unresolved name, including the
single reciprocal edge selected by the relationship-kind tag. -/
def mkPlaceholder (pid : Nat) (first last : Str) (rel : RelType) (subject : Nat) : Member :=
  { id := pid
    first_name := first
    middle_name := []
    maiden_name := []
    other_names := []
    last_name := last
    suffix := []
    birth_date := []
    death_date := none
    gender := "unknown".data
    parents := if rel = RelType.children then [subject] else []
    children := if rel = RelType.parents then [subject] else []
    spouse := if rel = RelType.spouse then [subject] else []
    siblings := if rel = RelType.siblings then [subject] else []
    photo := none
    bio := "Auto-added placeholder. Update this member's info.".data }

/-- One comma-separated entry of `resolve_to_ids` in `add_member`:
literal numerals are taken as ids, otherwise the first case-insensitive
full-name match wins, otherwise a placeholder is minted (empty entries
are dropped).  The state is (resolved ids, next fresh id, family). -/
def resolveEntry (rel : RelType) (this_id : Nat)
    (st : List Nat × Nat × List Member) (rawEntry : Str) : List Nat × Nat × List Member :=
  let result := st.1
  let nid := st.2.1
  let f := st.2.2
  let entry := strTrim rawEntry
  if strIsDigit entry then
    (result ++ [strToNat entry], nid, f)
  else
    match f.find? (fun m =>
        strLower (strTrim m.first_name ++ [' '] ++ strTrim m.last_name) == strLower entry) with
    | some m => (result ++ [m.id], nid, f)
    | none =>
      if entry.isEmpty then (result, nid, f)
      else
        let parts := splitWs entry
        let first := parts.headD "Unknown".data
        let last := if parts.length > 1 then parts.getLastD "Unknown".data else "Unknown".data
        (result ++ [nid], nid + 1, f ++ [mkPlaceholder nid first last rel this_id])

/-- `resolve_to_ids(val, family, next_id, rel_type, this_member_id)` from
the `add_member` route (the add-path resolver, without bracketed-id
support and without reciprocal linking of existing matches). -/
def resolve_to_ids (val : Str) (fam : List Member) (next_id : Nat)
    (rel : RelType) (this_id : Nat) : List Nat × Nat × List Member :=
  if val.isEmpty then ([], next_id, fam)
  else (splitOnComma val).foldl (resolveEntry rel this_id) ([], next_id, fam)

/-- The raw form fields of the add-member POST.  The file-upload field is
external input-output and is modelled as absent (`photo = None`). -/
structure AddForm where
  first_name : Str
  middle_name : Str
  maiden_name : Str
  other_names : Str
  last_name : Str
  suffix : Str
  birth_date : Str
  death_date : Str
  gender : Str
  parents : Str
  children : Str
  siblings : Str
  spouse : Str
  bio : Str
deriving DecidableEq, Repr

/-- `if acc contains c then skip else append`, the per-element effect of
the child-propagation inner loops. -/
def appendMissingAll (dst src : List Nat) : List Nat :=
  src.foldl (fun acc c => if acc.contains c then acc else acc ++ [c]) dst

/-- One spouse pair of the propagation loop: union the children of the
member with id `mid` into the record with id `sid`, then union the
updated children of `sid` back into `mid`. -/
def propagatePair (f : List Member) (mid sid : Nat) : List Member :=
  let mch := ((findMember f mid).map Member.children).getD []
  let f1 := f.map (fun o =>
    if o.id == sid then { o with children := appendMissingAll o.children mch } else o)
  let sch := ((findMember f1 sid).map Member.children).getD []
  f1.map (fun o =>
    if o.id == mid then { o with children := appendMissingAll o.children sch } else o)

/-- The `Propagate children to spouses automatically` loop of `add_member`
and `edit_member`: for every member in store order and every existing
spouse id, exchange children both ways. -/
def propagateChildren (fam : List Member) : List Member :=
  (ids fam).foldl (fun f mid =>
    ((((findMember f mid).map Member.spouse).getD [])).foldl
      (fun g sid => if (ids fam).contains sid then propagatePair g mid sid else g) f) fam

/-- The `Ensure sibling and spouse lists are symmetric` loop of
`add_member`: every member named in the resolved sibling list gains the
new member and the other named siblings, as a sorted set. -/
def siblingFixup (fam : List Member) (new_id : Nat) (siblings : List Nat) : List Member :=
  fam.map (fun m =>
    if m.id != new_id && siblings.contains m.id then
      let current := (m.siblings ++ new_id :: siblings.filter (fun s => s != m.id)).dedup
      { m with siblings := List.insertionSort (· ≤ ·) current }
    else m)

/-- The display order used on every save:
`sorted(family, key=lambda m: (first_name.lower(), last_name.lower()))`.
Python `sorted` is a stable ascending sort, which is exactly insertion
sort with the lexicographic key comparison. -/
def byNameLe (a b : Member) : Prop :=
  (strLtB (strLower a.first_name) (strLower b.first_name) ||
    (strLower a.first_name == strLower b.first_name &&
      strLeB (strLower a.last_name) (strLower b.last_name))) = true

instance : DecidableRel byNameLe := fun a b => by
  unfold byNameLe; infer_instance

def sortFamily (fam : List Member) : List Member := List.insertionSort byNameLe fam

/-- The resolution stage of `add_member`: the four relationship fields
resolved in source order (parents, children, siblings, spouse), with
`next_id = new_id + 1`; returns the four id lists and the family with
all minted placeholders appended. -/
def add_member_resolved (form : AddForm) (fam : List Member) :
    (List Nat × List Nat × List Nat × List Nat) × List Member :=
  let new_id := maxId fam + 1
  let r1 := resolve_to_ids form.parents fam (new_id + 1) RelType.parents new_id
  let r2 := resolve_to_ids form.children r1.2.2 r1.2.1 RelType.children new_id
  let r3 := resolve_to_ids form.siblings r2.2.2 r2.2.1 RelType.siblings new_id
  let r4 := resolve_to_ids form.spouse r3.2.2 r3.2.1 RelType.spouse new_id
  ((r1.1, r2.1, r3.1, r4.1), r4.2.2)

/-- The record `add_member` builds from the form and the resolved ids. -/
def newMemberRecord (form : AddForm) (fam : List Member) : Member :=
  { id := maxId fam + 1
    first_name := form.first_name
    middle_name := form.middle_name
    maiden_name := form.maiden_name
    other_names := form.other_names
    last_name := form.last_name
    suffix := form.suffix
    birth_date := form.birth_date
    death_date := if form.death_date.isEmpty then none else some form.death_date
    gender := form.gender
    parents := (add_member_resolved form fam).1.1
    children := (add_member_resolved form fam).1.2.1
    siblings := (add_member_resolved form fam).1.2.2.1
    spouse := (add_member_resolved form fam).1.2.2.2
    photo := none
    bio := form.bio }

/-- The family just before the final synchronizations of `add_member`:
placeholders and the new record appended, children propagated across
spouses and the named siblings fixed up. -/
def preSyncFamily (form : AddForm) (fam : List Member) : List Member :=
  siblingFixup
    (propagateChildren ((add_member_resolved form fam).2 ++ [newMemberRecord form fam]))
    (maxId fam + 1) (add_member_resolved form fam).1.2.2.1

/-- The POST branch of the `add_member` route: resolve the four
relationship fields (minting placeholders), append the new record,
propagate children across spouses, fix up the named siblings, run the
spouse synchronization and sort for persistence. -/
def add_member (form : AddForm) (fam : List Member) : List Member :=
  sortFamily (sync_spouses_in_family (preSyncFamily form fam))

/-! ## Deletion (`admin_delete_member`) -/

/-- The `admin_delete_member` route on an existing id: drop the record,
strip the id from every edge field of the remaining records and re-run
the sibling synchronization.  A missing id only redirects, leaving the
store unchanged. -/
def admin_delete_member (member_id : Nat) (fam : List Member) : List Member :=
  match findMember fam member_id with
  | none => fam
  | some _ =>
    let f1 := (fam.filter (fun m => m.id != member_id)).map (fun m =>
      { m with
        parents := m.parents.filter (fun i => i != member_id)
        children := m.children.filter (fun i => i != member_id)
        siblings := m.siblings.filter (fun i => i != member_id)
        spouse := m.spouse.filter (fun i => i != member_id) })
    sync_siblings_in_family f1

/-! ## Merge (`admin_merge_duplicates`, POST branch after confirmation) -/

/-- Outcome of a merge request: either the new persisted store, or an
error response issued before anything is written. -/
inductive MergeOutcome where
  | saved (fam : List Member)
  | badRequest (msg : Str)
  | notFound (msg : Str)
deriving DecidableEq, Repr

/-- Python falsiness of the optional `photo` field (`None` or `""`). -/
def optFalsy : Option Str → Bool
  | none => true
  | some s => s.isEmpty

/-- Union the four edge lists of one duplicate into the survivor record
(`sib_id != primary_id` is checked for siblings only, exactly as in the
source; the final cleanup strips the other self-references). -/
def absorbDuplicate (primary_id : Nat) (p dup : Member) : Member :=
  let p1 := { p with parents := appendMissingAll p.parents dup.parents }
  let p2 := { p1 with children := appendMissingAll p1.children dup.children }
  let p3 := { p2 with spouse := appendMissingAll p2.spouse dup.spouse }
  let p4 := { p3 with siblings :=
    dup.siblings.foldl (fun acc s =>
      if !acc.contains s && s != primary_id then acc ++ [s] else acc) p3.siblings }
  let p5 := if optFalsy p4.photo && !(optFalsy dup.photo) then { p4 with photo := dup.photo } else p4
  if p5.bio.isEmpty && !dup.bio.isEmpty then { p5 with bio := dup.bio } else p5

/-- Rewrite every reference to a duplicate id into the survivor id and
deduplicate, for one edge list of a non-participant record.  The source
uses `list(set(...))`, whose order Python leaves unspecified;
`List.dedup` keeps the same membership set deterministically. -/
def rewriteRefs (primary_id : Nat) (duplicate_ids : List Nat) (l : List Nat) : List Nat :=
  (l.map (fun x => if duplicate_ids.contains x then primary_id else x)).dedup

/-- Merge stage `Update all references in other family members`: rewrite
the four edge lists of every record that is neither the survivor nor a
duplicate. -/
def mergeRewriteOthers (primary_id : Nat) (duplicate_ids : List Nat)
    (f : List Member) : List Member :=
  f.map (fun m =>
    if m.id == primary_id || duplicate_ids.contains m.id then m
    else
      { m with
        parents := rewriteRefs primary_id duplicate_ids m.parents
        children := rewriteRefs primary_id duplicate_ids m.children
        spouse := rewriteRefs primary_id duplicate_ids m.spouse
        siblings := rewriteRefs primary_id duplicate_ids m.siblings })

/-- Merge stage `Remove duplicate members from family list`. -/
def mergeRemoveDups (primary_id : Nat) (duplicate_ids : List Nat)
    (f : List Member) : List Member :=
  f.filter (fun m => !duplicate_ids.contains m.id || m.id == primary_id)

/-- Merge stage `Clean up primary's own relationships`: keep only ids of
the post-removal store, dropping self-references (`valid_ids` in the
source is computed after the removal stage, hence `ids f` here). -/
def mergeStripPrimary (primary_id : Nat) (f : List Member) : List Member :=
  f.map (fun m =>
    if m.id == primary_id then
      { m with
        parents := m.parents.filter (fun i => (ids f).contains i && i != primary_id)
        children := m.children.filter (fun i => (ids f).contains i && i != primary_id)
        spouse := m.spouse.filter (fun i => (ids f).contains i && i != primary_id)
        siblings := m.siblings.filter (fun i => (ids f).contains i && i != primary_id) }
    else m)

def admin_merge_duplicates (primary_id : Nat) (duplicate_ids : List Nat)
    (fam : List Member) : MergeOutcome :=
  if !duplicate_ids.contains primary_id then
    MergeOutcome.badRequest "Primary ID must be one of the duplicates".data
  else
    match findMember fam primary_id with
    | none => MergeOutcome.notFound "Primary member not found".data
    | some primary0 =>
      let dups := fam.filter (fun m => m.id != primary_id && duplicate_ids.contains m.id)
      let primary1 := dups.foldl (absorbDuplicate primary_id) primary0
      let fam1 := fam.map (fun m => if m.id == primary_id then primary1 else m)
      let fam3 := mergeRemoveDups primary_id duplicate_ids
        (mergeRewriteOthers primary_id duplicate_ids fam1)
      MergeOutcome.saved (mergeStripPrimary primary_id fam3)

/-- The store as persisted after a merge request: the rewritten document
on success, the untouched input store on any error response. -/
def persistedAfterMerge (primary_id : Nat) (duplicate_ids : List Nat)
    (fam : List Member) : List Member :=
  match admin_merge_duplicates primary_id duplicate_ids fam with
  | MergeOutcome.saved f => f
  | _ => fam

/-! ## Specification-side notions

The component structure of the sibling graph, phrased as reflexive
transitive closure of the adjacency relation the source builds. -/

/-- Single adjacency step of the sibling graph, as a proposition. -/
def AdjP (fam : List Member) (a b : Nat) : Prop := adjb fam a b = true

/-- Membership in the same connected component: `b` is reachable from `a`
in the undirected sibling graph. -/
def SibReach (fam : List Member) : Nat → Nat → Prop :=
  Relation.ReflTransGen (AdjP fam)

/-- One adjacency step that stays outside the visited set `V`. -/
def AvoidStep (fam : List Member) (V : List Nat) (a b : Nat) : Prop :=
  adjb fam a b = true ∧ b ∉ V

/-- Reachability along nodes outside `V` (after the start node). -/
def Avoid (fam : List Member) (V : List Nat) : Nat → Nat → Prop :=
  Relation.ReflTransGen (AvoidStep fam V)

/-- What one run of the DFS while-loop collects: nodes reachable, outside
`V`, from an unvisited stack entry that is a store id. -/
def DfsFrom (fam : List Member) (V stack : List Nat) (y : Nat) : Prop :=
  ∃ s ∈ stack, s ∈ ids fam ∧ s ∉ V ∧ Avoid fam V s y

/-- The postcondition of sibling synchronization for one record: its
siblings list is the strictly sorted enumeration of its connected
component in the sibling graph of `fam0`, minus the record itself. -/
def GoodSiblings (fam0 : List Member) (m : Member) : Prop :=
  m.siblings.Sorted (· < ·) ∧ ∀ j, j ∈ m.siblings ↔ SibReach fam0 m.id j ∧ j ≠ m.id

/-- The record with its siblings field blanked, used to state that a pass
changes nothing but siblings. -/
def eraseSib (m : Member) : Member := { m with siblings := [] }

/-- The record with its spouse field blanked, used to state that a pass
changes nothing but spouses. -/
def eraseSp (m : Member) : Member := { m with spouse := [] }

/-- The postcondition of spouse synchronization for one record in store
`g`: every spouse entry is a store id, is not the record itself, and is
reciprocated by the record it names. -/
def SpouseOk (validIds : List Nat) (g : List Member) (m : Member) : Prop :=
  ∀ x ∈ m.spouse, x ∈ validIds ∧ x ≠ m.id ∧ ∀ b ∈ g, b.id = x → m.id ∈ b.spouse

/-- Scenario data: an all-empty add-member form. -/
def blankForm : AddForm :=
  ⟨[], [], [], [], [], [], [], [], [], [], [], [], [], []⟩

def formAlice : AddForm :=
  { blankForm with first_name := "Alice".data, last_name := "Alpha".data }

def formBob : AddForm :=
  { blankForm with first_name := "Bob".data, last_name := "Beta".data }

def formCarol : AddForm :=
  { blankForm with first_name := "Carol".data, last_name := "Gamma".data }

/-- Scenario data: a member form whose parents text is the numeral 1. -/
def formSelfParent : AddForm :=
  { blankForm with first_name := "A".data, last_name := "B".data, parents := "1".data }

/-- Scenario data: a bare record with the given id and edge lists. -/
def bareMember (i : Nat) (first : Str) (ps cs sp sibs : List Nat) : Member :=
  { id := i, first_name := first, middle_name := [], maiden_name := [], other_names := [],
    last_name := "X".data, suffix := [], birth_date := [], death_date := none, gender := [],
    parents := ps, children := cs, spouse := sp, siblings := sibs, photo := none, bio := [] }

/-- Scenario data: two members sharing parent 10, a third linked to the
second by an explicit sibling entry, and a fourth with a dangling sibling
entry. -/
def witFamC1 : List Member :=
  [bareMember 1 "A".data [10] [] [] [], bareMember 2 "B".data [10] [] [] [],
   bareMember 3 "C".data [] [] [] [2], bareMember 4 "D".data [] [] [] [99]]

/-! ## Theorems -/

/-- Helper: `List.contains` agrees with membership for `Nat` lists. -/
theorem contains_iff_mem (l : List Nat) (a : Nat) : l.contains a = true ↔ a ∈ l := by
  simp [List.contains, List.elem_iff]

/-- Claim C10: for every family store and every pair of ids where at least
one id has no corresponding record, `get_relationship` totally returns
the string `No relationship found`; in this embedding the function is
total by construction, so no exception and no NotFound signal can occur. -/
theorem get_relationship_total_on_missing (a b : Nat) (fam : List Member)
    (h : findMember fam a = none ∨ findMember fam b = none) :
    get_relationship a b fam = "No relationship found".data := by
  unfold get_relationship
  rcases h with h | h
  · rw [h]
  · rw [h]; cases findMember fam a <;> rfl

/-- Witness for C10: id 1 is absent from the empty store. -/
theorem get_relationship_total_on_missing_witness :
    get_relationship 1 2 [] = "No relationship found".data :=
  get_relationship_total_on_missing 1 2 [] (Or.inl (by decide))

/-- Claim C9: a merge request whose survivor id is not in the supplied
duplicate-id set answers 400 Bad Request, and the persisted family
document is left completely unchanged (the check precedes the backup,
the load and the save in the source). -/
theorem merge_requires_survivor_in_duplicates
    (primary_id : Nat) (duplicate_ids : List Nat) (fam : List Member)
    (h : primary_id ∉ duplicate_ids) :
    admin_merge_duplicates primary_id duplicate_ids fam =
      MergeOutcome.badRequest "Primary ID must be one of the duplicates".data ∧
    persistedAfterMerge primary_id duplicate_ids fam = fam := by
  have hc : duplicate_ids.contains primary_id = false := by
    rw [Bool.eq_false_iff]
    intro hcon
    exact h ((contains_iff_mem _ _).mp hcon)
  constructor
  · unfold admin_merge_duplicates
    rw [hc]
    rfl
  · unfold persistedAfterMerge admin_merge_duplicates
    rw [hc]
    rfl

/-- Witness for C9: survivor 4 is not among the duplicates {2, 5}. -/
theorem merge_requires_survivor_in_duplicates_witness :
    admin_merge_duplicates 4 [2, 5] [] =
      MergeOutcome.badRequest "Primary ID must be one of the duplicates".data ∧
    persistedAfterMerge 4 [2, 5] [] = [] :=
  merge_requires_survivor_in_duplicates 4 [2, 5] [] (by decide)

/-- Claim C6: the pairwise relationship label is evaluated in fixed
precedence with first match winning: whenever both records exist, share
at least one parent id and neither appears in the parents of the other,
the shared-parent sibling label is returned, regardless of the spouse
lists (the spouse test comes later in the chain). -/
theorem relationship_shared_parent_beats_spouse
    (fam : List Member) (aid bid : Nat) (A B : Member)
    (hA : findMember fam aid = some A) (hB : findMember fam bid = some B)
    (hshare : ∃ p, p ∈ A.parents ∧ p ∈ B.parents)
    (hpa : bid ∉ A.parents) (hpb : aid ∉ B.parents) :
    get_relationship aid bid fam =
      A.first_name ++ " and ".data ++ B.first_name ++ " are siblings".data := by
  obtain ⟨p, hp1, hp2⟩ := hshare
  have h1 : A.parents.contains bid = false := by
    rw [Bool.eq_false_iff]; intro hcon; exact hpa ((contains_iff_mem _ _).mp hcon)
  have h2 : B.parents.contains aid = false := by
    rw [Bool.eq_false_iff]; intro hcon; exact hpb ((contains_iff_mem _ _).mp hcon)
  have h3 : A.parents.any (fun q => B.parents.contains q) = true := by
    rw [List.any_eq_true]
    exact ⟨p, hp1, (contains_iff_mem _ _).mpr hp2⟩
  unfold get_relationship
  rw [hA, hB]
  dsimp only
  rw [h1, h2, h3]
  simp

/-- Witness for C6: records 1 and 2 share parent 7 and are mutual spouses;
the sibling label still wins. -/
theorem relationship_shared_parent_beats_spouse_witness :
    get_relationship 1 2 [bareMember 1 "A".data [7] [] [2] [], bareMember 2 "B".data [7] [] [1] []] =
      "A".data ++ " and ".data ++ "B".data ++ " are siblings".data :=
  relationship_shared_parent_beats_spouse
    [bareMember 1 "A".data [7] [] [2] [], bareMember 2 "B".data [7] [] [1] []] 1 2
    (bareMember 1 "A".data [7] [] [2] []) (bareMember 2 "B".data [7] [] [1] [])
    (by decide) (by decide) ⟨7, by decide, by decide⟩ (by decide) (by decide)

/-- Part of claim C3 (counterexample): creating a member on an empty store
with parents text `1` — the id the new member itself receives — persists
a record whose parents list contains its own id.  The no-self-reference
invariant fails for the parents field. -/
theorem add_member_self_reference_in_parents :
    ((add_member formSelfParent []).find? (fun m => m.id == 1)).map Member.parents =
      some [1] := by decide

/-- Part of claim C8 (counterexample): ids are reused after deletion.
Bob receives id 2; after deleting record 2 a subsequent creation assigns
id 2 again, to Carol. -/
theorem deleted_id_reused :
    ((add_member formBob (add_member formAlice [])).find? (fun m => m.id == 2)).map
        Member.first_name = some "Bob".data ∧
    (admin_delete_member 2 (add_member formBob (add_member formAlice []))).find?
        (fun m => m.id == 2) = none ∧
    ((add_member formCarol
        (admin_delete_member 2 (add_member formBob (add_member formAlice [])))).find?
        (fun m => m.id == 2)).map Member.first_name = some "Carol".data := by
  refine ⟨by decide, by decide, by decide⟩

/-- Claim C7: starting from an empty store, creating a member whose
parents text is `Alice Smith` produces exactly two records — the new
member (id 1) with `parents = [2]`, and the placeholder Alice Smith
(id 2 = 1 + 1) whose only edge is `children = [1]`, the reciprocal edge
selected by the `parents` relationship-kind tag. -/
theorem create_member_placeholder_reciprocity
    (fn mn man onames ln sfx bd dd g bioS : Str) :
    (add_member ⟨fn, mn, man, onames, ln, sfx, bd, dd, g,
        "Alice Smith".data, [], [], [], bioS⟩ []).length = 2 ∧
    (add_member ⟨fn, mn, man, onames, ln, sfx, bd, dd, g,
        "Alice Smith".data, [], [], [], bioS⟩ []).find? (fun m => m.id == 1) =
      some ⟨1, fn, mn, man, onames, ln, sfx, bd,
        (if dd.isEmpty then none else some dd), g, [2], [], [], [], none, bioS⟩ ∧
    (add_member ⟨fn, mn, man, onames, ln, sfx, bd, dd, g,
        "Alice Smith".data, [], [], [], bioS⟩ []).find? (fun m => m.id == 2) =
      some (mkPlaceholder 2 "Alice".data "Smith".data RelType.parents 1) := by
  have key : add_member ⟨fn, mn, man, onames, ln, sfx, bd, dd, g,
      "Alice Smith".data, [], [], [], bioS⟩ [] =
      sortFamily [mkPlaceholder 2 "Alice".data "Smith".data RelType.parents 1,
        ⟨1, fn, mn, man, onames, ln, sfx, bd,
          (if dd.isEmpty then none else some dd), g, [2], [], [], [], none, bioS⟩] := rfl
  rw [key]
  unfold sortFamily
  simp only [List.insertionSort, List.orderedInsert]
  by_cases h : byNameLe (mkPlaceholder 2 "Alice".data "Smith".data RelType.parents 1)
      ⟨1, fn, mn, man, onames, ln, sfx, bd,
        (if dd.isEmpty then none else some dd), g, [2], [], [], [], none, bioS⟩
  · rw [if_pos h]
    exact ⟨rfl, rfl, rfl⟩
  · rw [if_neg h]
    exact ⟨rfl, rfl, rfl⟩

/-- Helper: mapping a function that keeps the `id` field keeps the id
list of the store. -/
theorem ids_map_of_id_eq (f : Member → Member) (l : List Member)
    (h : ∀ m, (f m).id = m.id) : ids (l.map f) = ids l := by
  simp only [ids, List.map_map]
  exact List.map_congr_left (fun m _ => h m)

/-- Helper: dedup and duplicate-id replacement never produce a
non-survivor duplicate id. -/
theorem rewriteRefs_no_dup (primary_id : Nat) (duplicate_ids : List Nat) (l : List Nat)
    (d : Nat) (hd : d ∈ duplicate_ids) (hdp : d ≠ primary_id) :
    d ∉ rewriteRefs primary_id duplicate_ids l := by
  intro hmem
  unfold rewriteRefs at hmem
  rw [List.mem_dedup, List.mem_map] at hmem
  obtain ⟨x, _hx, hrep⟩ := hmem
  by_cases hc : duplicate_ids.contains x = true
  · rw [if_pos hc] at hrep; exact hdp hrep.symm
  · rw [if_neg hc] at hrep
    subst hrep
    exact hc ((contains_iff_mem _ _).mpr hd)

/-- Helper: membership in the id list of a store. -/
theorem mem_ids_iff (f : List Member) (x : Nat) :
    x ∈ ids f ↔ ∃ mr, mr ∈ f ∧ mr.id = x := by
  simp [ids]

/-- Helper: the survivor-strip stage keeps the id list. -/
theorem mergeStripPrimary_ids (p : Nat) (f : List Member) :
    ids (mergeStripPrimary p f) = ids f := by
  unfold mergeStripPrimary
  apply ids_map_of_id_eq
  intro m
  by_cases hc : (m.id == p) = true <;> simp [hc]

/-- Helper: what the survivor-strip stage does to one record. -/
theorem mergeStripPrimary_mem (p : Nat) (f : List Member) (m : Member)
    (hm : m ∈ mergeStripPrimary p f) :
    ∃ m3, m3 ∈ f ∧ m3.id = m.id ∧
      ((m.id = p ∧
        m.parents = m3.parents.filter (fun i => (ids f).contains i && i != p) ∧
        m.children = m3.children.filter (fun i => (ids f).contains i && i != p) ∧
        m.spouse = m3.spouse.filter (fun i => (ids f).contains i && i != p) ∧
        m.siblings = m3.siblings.filter (fun i => (ids f).contains i && i != p)) ∨
      (m.id ≠ p ∧ m = m3)) := by
  unfold mergeStripPrimary at hm
  rw [List.mem_map] at hm
  obtain ⟨m3, hm3, heq⟩ := hm
  by_cases hc : (m3.id == p) = true
  · rw [if_pos hc] at heq
    refine ⟨m3, hm3, ?_, Or.inl ⟨?_, ?_, ?_, ?_, ?_⟩⟩ <;> rw [← heq]
    exact beq_iff_eq.mp hc
  · rw [if_neg hc] at heq
    refine ⟨m3, hm3, by rw [heq], Or.inr ⟨?_, heq.symm⟩⟩
    intro h
    exact hc (beq_iff_eq.mpr (by rw [heq]; exact h))

/-- Helper: records surviving the removal stage are non-duplicates (or
the survivor itself). -/
theorem mergeRemoveDups_mem (p : Nat) (dups : List Nat) (f : List Member) (m : Member)
    (hm : m ∈ mergeRemoveDups p dups f) :
    m ∈ f ∧ (m.id ∉ dups ∨ m.id = p) := by
  unfold mergeRemoveDups at hm
  rw [List.mem_filter] at hm
  refine ⟨hm.1, ?_⟩
  rcases Bool.or_eq_true_iff.mp hm.2 with h | h
  · left
    intro hmem
    have h2 : dups.contains m.id = false := by simpa using h
    rw [← contains_iff_mem, h2] at hmem
    exact Bool.false_ne_true hmem
  · right; exact beq_iff_eq.mp h

/-- Helper: after the rewrite stage, a record is the survivor, a
duplicate, or free of non-survivor duplicate references. -/
theorem mergeRewriteOthers_mem (p : Nat) (dups : List Nat) (f : List Member) (m : Member)
    (hm : m ∈ mergeRewriteOthers p dups f) :
    m.id = p ∨ m.id ∈ dups ∨
      ∀ d, d ∈ dups → d ≠ p →
        d ∉ m.parents ∧ d ∉ m.children ∧ d ∉ m.spouse ∧ d ∉ m.siblings := by
  unfold mergeRewriteOthers at hm
  rw [List.mem_map] at hm
  obtain ⟨m1, _hm1, heq⟩ := hm
  by_cases hc : (m1.id == p || dups.contains m1.id) = true
  · rw [if_pos hc] at heq
    subst heq
    rcases Bool.or_eq_true_iff.mp hc with h | h
    · exact Or.inl (beq_iff_eq.mp h)
    · exact Or.inr (Or.inl ((contains_iff_mem _ _).mp h))
  · rw [if_neg hc] at heq
    subst heq
    refine Or.inr (Or.inr fun d hd hdp => ?_)
    exact ⟨rewriteRefs_no_dup p dups _ d hd hdp, rewriteRefs_no_dup p dups _ d hd hdp,
      rewriteRefs_no_dup p dups _ d hd hdp, rewriteRefs_no_dup p dups _ d hd hdp⟩

/-- Claim C4: after a merge completes, no remaining record is a
non-survivor duplicate, no remaining record references a non-survivor
duplicate id in any of the four edge fields, and the survivor record
itself carries only ids of the post-merge store, none of them itself. -/
theorem merge_removes_duplicate_references
    (primary_id : Nat) (duplicate_ids : List Nat) (fam fam4 : List Member)
    (_hnd : (ids fam).Nodup)
    (hsaved : admin_merge_duplicates primary_id duplicate_ids fam = MergeOutcome.saved fam4)
    (m : Member) (hm : m ∈ fam4) :
    (¬(m.id ∈ duplicate_ids ∧ m.id ≠ primary_id)) ∧
    (∀ d, d ∈ duplicate_ids → d ≠ primary_id →
      d ∉ m.parents ∧ d ∉ m.children ∧ d ∉ m.spouse ∧ d ∉ m.siblings) ∧
    (m.id = primary_id → ∀ x,
      (x ∈ m.parents ∨ x ∈ m.children ∨ x ∈ m.spouse ∨ x ∈ m.siblings) →
      x ∈ ids fam4 ∧ x ≠ primary_id) := by
  clear _hnd
  unfold admin_merge_duplicates at hsaved
  by_cases hc : duplicate_ids.contains primary_id = true
  case neg =>
    rw [Bool.not_eq_true] at hc
    rw [hc] at hsaved
    simp at hsaved
  rw [hc] at hsaved
  simp only [Bool.not_true, Bool.false_eq_true, if_false] at hsaved
  cases hfind : findMember fam primary_id with
  | none => rw [hfind] at hsaved; simp at hsaved
  | some primary0 =>
    rw [hfind] at hsaved
    simp only [MergeOutcome.saved.injEq] at hsaved
    subst hsaved
    obtain ⟨m3, hm3, hid3, hcase⟩ := mergeStripPrimary_mem _ _ _ hm
    obtain ⟨hm3mem, hm3dup⟩ := mergeRemoveDups_mem _ _ _ _ hm3
    have hids4 : ids (mergeStripPrimary primary_id
        (mergeRemoveDups primary_id duplicate_ids (mergeRewriteOthers primary_id duplicate_ids
          (fam.map fun mm => if mm.id == primary_id then
            (fam.filter fun mm => mm.id != primary_id && duplicate_ids.contains mm.id).foldl
              (absorbDuplicate primary_id) primary0 else mm)))) =
        ids (mergeRemoveDups primary_id duplicate_ids (mergeRewriteOthers primary_id duplicate_ids
          (fam.map fun mm => if mm.id == primary_id then
            (fam.filter fun mm => mm.id != primary_id && duplicate_ids.contains mm.id).foldl
              (absorbDuplicate primary_id) primary0 else mm))) :=
      mergeStripPrimary_ids _ _
    refine ⟨?_, ?_, ?_⟩
    · rintro ⟨hmd, hmp⟩
      rw [← hid3] at hmd hmp
      rcases hm3dup with h | h
      · exact h hmd
      · exact hmp h
    · intro d hd hdp
      rcases hcase with ⟨hmp, hp1, hp2, hp3, hp4⟩ | ⟨hmp, hmeq⟩
      · -- the survivor: every surviving entry is an id of the post-removal store
        have hnotvalid : ∀ l : List Nat,
            d ∉ l.filter (fun i => (ids (mergeRemoveDups primary_id duplicate_ids
              (mergeRewriteOthers primary_id duplicate_ids
                (fam.map fun mm => if mm.id == primary_id then
                  (fam.filter fun mm => mm.id != primary_id &&
                    duplicate_ids.contains mm.id).foldl
                    (absorbDuplicate primary_id) primary0 else mm)))).contains i &&
                i != primary_id) := by
          intro l hmem
          rw [List.mem_filter, Bool.and_eq_true] at hmem
          have hdval := (contains_iff_mem _ _).mp hmem.2.1
          rw [mem_ids_iff] at hdval
          obtain ⟨mr, hmr, hmrid⟩ := hdval
          obtain ⟨_, hmr2⟩ := mergeRemoveDups_mem _ _ _ _ hmr
          rw [hmrid] at hmr2
          rcases hmr2 with h | h
          · exact h hd
          · exact hdp h
        rw [hp1, hp2, hp3, hp4]
        exact ⟨hnotvalid _, hnotvalid _, hnotvalid _, hnotvalid _⟩
      · -- a non-survivor record: it went through the rewrite stage
        subst hmeq
        rcases mergeRewriteOthers_mem _ _ _ _ hm3mem with h | h | h
        · exact absurd h hmp
        · rcases hm3dup with h2 | h2
          · exact absurd h h2
          · exact absurd h2 hmp
        · exact h d hd hdp
    · intro hmp x hx
      rcases hcase with ⟨_, hp1, hp2, hp3, hp4⟩ | ⟨hne, _⟩
      · rw [hids4]
        have hfilter : ∀ l : List Nat, x ∈ l.filter (fun i =>
            (ids (mergeRemoveDups primary_id duplicate_ids
              (mergeRewriteOthers primary_id duplicate_ids
                (fam.map fun mm => if mm.id == primary_id then
                  (fam.filter fun mm => mm.id != primary_id &&
                    duplicate_ids.contains mm.id).foldl
                    (absorbDuplicate primary_id) primary0 else mm)))).contains i &&
              i != primary_id) →
            x ∈ ids (mergeRemoveDups primary_id duplicate_ids
              (mergeRewriteOthers primary_id duplicate_ids
                (fam.map fun mm => if mm.id == primary_id then
                  (fam.filter fun mm => mm.id != primary_id &&
                    duplicate_ids.contains mm.id).foldl
                    (absorbDuplicate primary_id) primary0 else mm))) ∧ x ≠ primary_id := by
          intro l hmem
          rw [List.mem_filter, Bool.and_eq_true] at hmem
          refine ⟨(contains_iff_mem _ _).mp hmem.2.1, ?_⟩
          have := hmem.2.2
          simpa using this
        rcases hx with hx | hx | hx | hx
        · rw [hp1] at hx; exact hfilter _ hx
        · rw [hp2] at hx; exact hfilter _ hx
        · rw [hp3] at hx; exact hfilter _ hx
        · rw [hp4] at hx; exact hfilter _ hx
      · exact absurd hmp hne

/-- Witness for C4: merging duplicates {2, 5} into survivor 2 in a store
where record 3 and the survivor reference duplicate 5. -/
theorem merge_removes_duplicate_references_witness :
    (ids [bareMember 2 "P".data [] [5] [5] [], bareMember 5 "D".data [7] [2] [3] [],
      bareMember 3 "C".data [5] [5] [5] [5], bareMember 7 "G".data [] [] [] []]).Nodup ∧
    ((¬((bareMember 3 "C".data [2] [2] [2] [2]).id ∈ [2, 5] ∧
        (bareMember 3 "C".data [2] [2] [2] [2]).id ≠ 2)) ∧
     (∀ d, d ∈ [2, 5] → d ≠ 2 →
        d ∉ (bareMember 3 "C".data [2] [2] [2] [2]).parents ∧
        d ∉ (bareMember 3 "C".data [2] [2] [2] [2]).children ∧
        d ∉ (bareMember 3 "C".data [2] [2] [2] [2]).spouse ∧
        d ∉ (bareMember 3 "C".data [2] [2] [2] [2]).siblings) ∧
     ((bareMember 3 "C".data [2] [2] [2] [2]).id = 2 → ∀ x,
        (x ∈ (bareMember 3 "C".data [2] [2] [2] [2]).parents ∨
         x ∈ (bareMember 3 "C".data [2] [2] [2] [2]).children ∨
         x ∈ (bareMember 3 "C".data [2] [2] [2] [2]).spouse ∨
         x ∈ (bareMember 3 "C".data [2] [2] [2] [2]).siblings) →
        x ∈ ids [bareMember 2 "P".data [7] [] [3] [], bareMember 3 "C".data [2] [2] [2] [2],
          bareMember 7 "G".data [] [] [] []] ∧ x ≠ 2)) :=
  ⟨by decide,
    merge_removes_duplicate_references 2 [2, 5]
      [bareMember 2 "P".data [] [5] [5] [], bareMember 5 "D".data [7] [2] [3] [],
        bareMember 3 "C".data [5] [5] [5] [5], bareMember 7 "G".data [] [] [] []]
      [bareMember 2 "P".data [7] [] [3] [], bareMember 3 "C".data [2] [2] [2] [2],
        bareMember 7 "G".data [] [] [] []]
      (by decide) (by decide) (bareMember 3 "C".data [2] [2] [2] [2]) (by decide)⟩

/-- One `processSid` iteration acts pointwise on the store. -/
theorem processSid_eq_map (validIds : List Nat) (mid : Nat) (f : List Member) (sid : Nat) :
    processSid validIds mid f sid = f.map (fun o => stepMember validIds mid o sid) := by
  by_cases hc : (validIds.contains sid && sid != mid) = true
  · unfold processSid
    rw [if_pos hc]
    refine List.map_congr_left (fun o _ => ?_)
    unfold stepMember
    rw [if_pos hc]
  · unfold processSid
    rw [if_neg hc]
    refine List.map_congr_left (fun o _ => ?_)
    unfold stepMember
    rw [if_neg hc]

/-- The whole inner loop of `sync_spouses_in_family` is a pointwise map
of the member-level fold. -/
theorem foldl_processSid_eq_map (validIds : List Nat) (mid : Nat) (snap : List Nat)
    (f : List Member) :
    snap.foldl (processSid validIds mid) f =
      f.map (fun o => snap.foldl (stepMember validIds mid) o) := by
  induction snap generalizing f with
  | nil => simp
  | cons s t ih =>
    rw [List.foldl_cons, processSid_eq_map, ih, List.map_map]
    rfl

/-- One member-level step only changes the spouse field. -/
theorem stepMember_eraseSp (validIds : List Nat) (mid : Nat) (o : Member) (sid : Nat) :
    eraseSp (stepMember validIds mid o sid) = eraseSp o := by
  unfold stepMember eraseSp
  split <;> split <;> rfl

/-- The member-level fold only changes the spouse field. -/
theorem memberFold_eraseSp (validIds : List Nat) (mid : Nat) (snap : List Nat) (o : Member) :
    eraseSp (snap.foldl (stepMember validIds mid) o) = eraseSp o := by
  induction snap generalizing o with
  | nil => rfl
  | cons s t ih => rw [List.foldl_cons, ih, stepMember_eraseSp]

/-- Records with equal spouse-blanked forms share every other field; in
particular the id. -/
theorem eraseSp_id_eq {a b : Member} (h : eraseSp a = eraseSp b) : a.id = b.id := by
  have h2 := congrArg Member.id h
  exact h2

/-- The member-level fold keeps the id. -/
theorem memberFold_id (validIds : List Nat) (mid : Nat) (snap : List Nat) (o : Member) :
    (snap.foldl (stepMember validIds mid) o).id = o.id :=
  eraseSp_id_eq (memberFold_eraseSp validIds mid snap o)

/-- Stores with equal spouse-blanked forms have equal id lists. -/
theorem ids_eq_of_eraseSp (f g : List Member) (h : f.map eraseSp = g.map eraseSp) :
    ids f = ids g :=
  calc ids f = ids (f.map eraseSp) := (ids_map_of_id_eq eraseSp f (fun _ => rfl)).symm
    _ = ids (g.map eraseSp) := by rw [h]
    _ = ids g := ids_map_of_id_eq eraseSp g (fun _ => rfl)

/-- Under unique ids, lookup of the id of a listed record finds it. -/
theorem findMember_eq_some (f : List Member) (hnd : (ids f).Nodup) (m : Member) (hm : m ∈ f) :
    findMember f m.id = some m := by
  induction f with
  | nil => cases hm
  | cons a t ih =>
    have hnd' := hnd
    rw [ids, List.map_cons, List.nodup_cons] at hnd'
    rcases List.mem_cons.mp hm with rfl | hm'
    · unfold findMember
      exact List.find?_cons_of_pos _ (beq_self_eq_true _)
    · have hne : (a.id == m.id) = false := by
        rw [beq_eq_false_iff_ne]
        intro hidq
        exact hnd'.1 (hidq ▸ (mem_ids_iff t m.id).mpr ⟨m, hm', rfl⟩)
      unfold findMember
      rw [List.find?_cons_of_neg _ (by simp [hne])]
      exact ih hnd'.2 hm'

/-- Step evaluation: valid snapshot entry naming this record. -/
theorem stepMember_valid_target (validIds : List Nat) (mid : Nat) (o : Member) (s : Nat)
    (hc : (validIds.contains s && s != mid) = true) (ho : (o.id == s) = true) :
    stepMember validIds mid o s =
      { o with spouse := if o.spouse.contains mid then o.spouse else o.spouse ++ [mid] } := by
  unfold stepMember
  rw [if_pos hc, if_pos ho]

/-- Step evaluation: valid snapshot entry naming another record. -/
theorem stepMember_valid_other (validIds : List Nat) (mid : Nat) (o : Member) (s : Nat)
    (hc : (validIds.contains s && s != mid) = true) (ho : ¬(o.id == s) = true) :
    stepMember validIds mid o s = o := by
  unfold stepMember
  rw [if_pos hc, if_neg ho]

/-- Step evaluation: invalid snapshot entry, at the member itself. -/
theorem stepMember_invalid_self (validIds : List Nat) (mid : Nat) (o : Member) (s : Nat)
    (hc : ¬(validIds.contains s && s != mid) = true) (ho : (o.id == mid) = true) :
    stepMember validIds mid o s =
      { o with spouse := o.spouse.filter (fun i => validIds.contains i && i != o.id) } := by
  unfold stepMember
  rw [if_neg hc, if_pos ho]

/-- Step evaluation: invalid snapshot entry, at another record. -/
theorem stepMember_invalid_other (validIds : List Nat) (mid : Nat) (o : Member) (s : Nat)
    (hc : ¬(validIds.contains s && s != mid) = true) (ho : ¬(o.id == mid) = true) :
    stepMember validIds mid o s = o := by
  unfold stepMember
  rw [if_neg hc, if_neg ho]

/-- Spouse evolution of a record other than the one being processed:
its list never shrinks, and grows at most by the single reverse edge
`mid`, appended only when the record is named by a valid snapshot entry. -/
theorem memberFold_nonmid (validIds : List Nat) (mid : Nat) (snap : List Nat) (o : Member)
    (hid : o.id ≠ mid) :
    (mid ∈ o.spouse → (snap.foldl (stepMember validIds mid) o).spouse = o.spouse) ∧
    (mid ∉ o.spouse →
      ((snap.foldl (stepMember validIds mid) o).spouse = o.spouse ∨
       ((snap.foldl (stepMember validIds mid) o).spouse = o.spouse ++ [mid] ∧
         o.id ∈ snap ∧ o.id ∈ validIds))) := by
  induction snap generalizing o with
  | nil => exact ⟨fun _ => rfl, fun _ => Or.inl rfl⟩
  | cons s t ih =>
    rw [List.foldl_cons]
    by_cases hc : (validIds.contains s && s != mid) = true
    · by_cases ho : (o.id == s) = true
      · rw [stepMember_valid_target validIds mid o s hc ho]
        by_cases hm : o.spouse.contains mid = true
        · rw [if_pos hm]
          constructor
          · intro hmem
            exact (ih o hid).1 hmem
          · intro hnm
            exact absurd ((contains_iff_mem _ _).mp hm) hnm
        · rw [if_neg hm]
          constructor
          · intro hmem
            exact absurd ((contains_iff_mem _ _).mpr hmem) hm
          · intro _
            right
            have hmem1 : mid ∈ ({ o with spouse := o.spouse ++ [mid] } : Member).spouse := by
              simp
            have h1 := (ih { o with spouse := o.spouse ++ [mid] } hid).1 hmem1
            have hos : o.id = s := beq_iff_eq.mp ho
            refine ⟨by rw [h1], ?_, ?_⟩
            · rw [hos]; exact List.mem_cons_self s t
            · simp only [Bool.and_eq_true] at hc
              rw [hos]
              exact (contains_iff_mem _ _).mp hc.1
      · rw [stepMember_valid_other validIds mid o s hc ho]
        refine ⟨fun hmem => (ih o hid).1 hmem, fun hnm => ?_⟩
        rcases (ih o hid).2 hnm with h | ⟨h1, h2, h3⟩
        · exact Or.inl h
        · exact Or.inr ⟨h1, List.mem_cons_of_mem s h2, h3⟩
    · have ho : ¬(o.id == mid) = true := by simp [hid]
      rw [stepMember_invalid_other validIds mid o s hc ho]
      refine ⟨fun hmem => (ih o hid).1 hmem, fun hnm => ?_⟩
      rcases (ih o hid).2 hnm with h | ⟨h1, h2, h3⟩
      · exact Or.inl h
      · exact Or.inr ⟨h1, List.mem_cons_of_mem s h2, h3⟩

/-- Spouse evolution of the record being processed: its list is either
untouched or pruned to the valid entries, and it is certainly pruned as
soon as one snapshot entry is invalid. -/
theorem memberFold_mid (validIds : List Nat) (mid : Nat) (snap : List Nat) (o : Member)
    (hid : o.id = mid) :
    ((snap.foldl (stepMember validIds mid) o).spouse = o.spouse ∨
     (snap.foldl (stepMember validIds mid) o).spouse =
       o.spouse.filter (fun i => validIds.contains i && i != mid)) ∧
    ((∃ s ∈ snap, ¬(validIds.contains s && s != mid) = true) →
      (snap.foldl (stepMember validIds mid) o).spouse =
        o.spouse.filter (fun i => validIds.contains i && i != mid)) := by
  induction snap generalizing o with
  | nil =>
    refine ⟨Or.inl rfl, ?_⟩
    rintro ⟨s, hs, _⟩
    cases hs
  | cons s t ih =>
    rw [List.foldl_cons]
    by_cases hc : (validIds.contains s && s != mid) = true
    · have hsm : s ≠ mid := by
        simp only [Bool.and_eq_true] at hc
        simpa using hc.2
      have ho : ¬(o.id == s) = true := by simp [hid, Ne.symm hsm]
      rw [stepMember_valid_other validIds mid o s hc ho]
      refine ⟨(ih o hid).1, ?_⟩
      rintro ⟨s', hs', hinv⟩
      rcases List.mem_cons.mp hs' with rfl | hs'
      · exact absurd hc hinv
      · exact (ih o hid).2 ⟨s', hs', hinv⟩
    · have ho : (o.id == mid) = true := beq_iff_eq.mpr hid
      rw [stepMember_invalid_self validIds mid o s hc ho]
      have hsp1 : ({ o with spouse := o.spouse.filter (fun i => validIds.contains i && i != o.id) } : Member).spouse =
          o.spouse.filter (fun i => validIds.contains i && i != mid) := by
        rw [hid]
      have hfix : (o.spouse.filter (fun i => validIds.contains i && i != mid)).filter
          (fun i => validIds.contains i && i != mid) =
          o.spouse.filter (fun i => validIds.contains i && i != mid) :=
        List.filter_eq_self.mpr (fun a ha => (List.mem_filter.mp ha).2)
      rcases (ih { o with spouse := o.spouse.filter (fun i => validIds.contains i && i != o.id) } hid).1 with h | h
      · exact ⟨Or.inr (by rw [h, hsp1]), fun _ => by rw [h, hsp1]⟩
      · rw [hsp1] at h
        rw [hfix] at h
        exact ⟨Or.inr h, fun _ => h⟩

/-- After the member with id `mid` is processed, every record named by a
valid snapshot entry carries the reverse edge `mid`. -/
theorem memberFold_reciprocal (validIds : List Nat) (mid : Nat) (snap : List Nat)
    (s : Nat) (o : Member) (hs : s ∈ snap) (hv : validIds.contains s = true)
    (hsm : s ≠ mid) (hos : o.id = s) :
    mid ∈ (snap.foldl (stepMember validIds mid) o).spouse := by
  induction snap generalizing o with
  | nil => cases hs
  | cons h t ih =>
    rw [List.foldl_cons]
    have hnm : o.id ≠ mid := by rw [hos]; exact hsm
    by_cases hc : (validIds.contains h && h != mid) = true
    · by_cases ho : (o.id == h) = true
      · rw [stepMember_valid_target validIds mid o h hc ho]
        by_cases hm : o.spouse.contains mid = true
        · rw [if_pos hm]
          have hmm : mid ∈ o.spouse := (contains_iff_mem _ _).mp hm
          have hgrow := (memberFold_nonmid validIds mid t o hnm).1 hmm
          show mid ∈ (t.foldl (stepMember validIds mid) o).spouse
          rw [hgrow]
          exact hmm
        · rw [if_neg hm]
          have h1 : mid ∈ ({ o with spouse := o.spouse ++ [mid] } : Member).spouse := by simp
          have hgrow := (memberFold_nonmid validIds mid t
            { o with spouse := o.spouse ++ [mid] } hnm).1 h1
          rw [hgrow]
          exact h1
      · rw [stepMember_valid_other validIds mid o h hc ho]
        have hsh : s ≠ h := fun he => ho (beq_iff_eq.mpr (hos.trans he))
        have hs' : s ∈ t := by
          rcases List.mem_cons.mp hs with he | h'
          · exact absurd he hsh
          · exact h'
        exact ih o hs' hos
    · have ho2 : ¬(o.id == mid) = true := by simp [hos, hsm]
      rw [stepMember_invalid_other validIds mid o h hc ho2]
      have hsh : s ≠ h := by
        intro he
        subst he
        refine hc ?_
        rw [Bool.and_eq_true]
        exact ⟨hv, by simp [hsm]⟩
      have hs' : s ∈ t := by
        rcases List.mem_cons.mp hs with he | h'
        · exact absurd he hsh
        · exact h'
      exact ih o hs' hos

/-- Under unique ids, two listed records with the same id are the same
record. -/
theorem mem_id_inj (f : List Member) (hnd : (ids f).Nodup) {a b : Member}
    (ha : a ∈ f) (hb : b ∈ f) (hid : a.id = b.id) : a = b := by
  have h1 := findMember_eq_some f hnd a ha
  have h2 := findMember_eq_some f hnd b hb
  rw [hid, h2] at h1
  exact (Option.some_injective _ h1).symm

/-- Existing spouse entries of a record other than the processed one
survive its processing. -/
theorem memberFold_nonmid_superset (validIds : List Nat) (mid : Nat) (snap : List Nat)
    (o : Member) (hid : o.id ≠ mid) (y : Nat) (hy : y ∈ o.spouse) :
    y ∈ (snap.foldl (stepMember validIds mid) o).spouse := by
  by_cases hm : mid ∈ o.spouse
  · rw [(memberFold_nonmid validIds mid snap o hid).1 hm]
    exact hy
  · rcases (memberFold_nonmid validIds mid snap o hid).2 hm with h | ⟨h, _, _⟩
    · rw [h]; exact hy
    · rw [h]; exact List.mem_append_left _ hy

/-- Processing one member establishes its `SpouseOk` postcondition and
preserves the postcondition of previously processed members. -/
theorem processMember_step (fam f : List Member) (mid : Nat) (P : List Nat)
    (hnd : (ids fam).Nodup)
    (hshape : f.map eraseSp = fam.map eraseSp)
    (hmid : mid ∈ ids fam) (hmidP : mid ∉ P)
    (hInv : ∀ m ∈ f, m.id ∈ P → SpouseOk (ids fam) f m) :
    (processMember (ids fam) f mid).map eraseSp = fam.map eraseSp ∧
    ∀ m ∈ processMember (ids fam) f mid, (m.id ∈ P ∨ m.id = mid) →
      SpouseOk (ids fam) (processMember (ids fam) f mid) m := by
  have hidsf : ids f = ids fam := ids_eq_of_eraseSp _ _ hshape
  have hndf : (ids f).Nodup := by rw [hidsf]; exact hnd
  obtain ⟨b, hb, hbid⟩ := (mem_ids_iff f mid).mp (by rw [hidsf]; exact hmid)
  have hfind : findMember f mid = some b := by
    rw [← hbid]; exact findMember_eq_some f hndf b hb
  have hpm : processMember (ids fam) f mid =
      f.map (fun o => b.spouse.foldl (stepMember (ids fam) mid) o) := by
    unfold processMember
    rw [hfind]
    exact foldl_processSid_eq_map (ids fam) mid b.spouse f
  rw [hpm]
  refine ⟨?_, ?_⟩
  · rw [List.map_map]
    exact (List.map_congr_left
      (fun o _ => memberFold_eraseSp (ids fam) mid b.spouse o)).trans hshape
  intro m' hm' hcase
  rw [List.mem_map] at hm'
  obtain ⟨m, hm, hmeq⟩ := hm'
  have heq' : m' = List.foldl (stepMember (ids fam) mid) m b.spouse := by rw [← hmeq]
  have hid' : m'.id = m.id := by rw [heq']; exact memberFold_id _ _ _ _
  have hmval : m.id ∈ ids fam := by
    rw [← hidsf]; exact (mem_ids_iff f m.id).mpr ⟨m, hm, rfl⟩
  intro x hx
  rw [heq'] at hx
  rcases hcase with hP | hM
  · -- a previously processed member
    have hmP : m.id ∈ P := by rw [← hid']; exact hP
    have hmnm : m.id ≠ mid := fun he => hmidP (he ▸ hmP)
    have hold := hInv m hm hmP
    have hsub : x ∈ m.spouse ∨ (x = mid ∧ m.id ∈ b.spouse) := by
      by_cases hmm : mid ∈ m.spouse
      · left
        rw [(memberFold_nonmid (ids fam) mid b.spouse m hmnm).1 hmm] at hx
        exact hx
      · rcases (memberFold_nonmid (ids fam) mid b.spouse m hmnm).2 hmm with h | ⟨h, h2, _⟩
        · left; rw [h] at hx; exact hx
        · rw [h] at hx
          rcases List.mem_append.mp hx with hl | hr
          · exact Or.inl hl
          · exact Or.inr ⟨by simpa using hr, h2⟩
    rcases hsub with hxm | ⟨hxmid, hmb⟩
    · obtain ⟨hval, hne, hrec⟩ := hold x hxm
      refine ⟨hval, by rw [hid']; exact hne, ?_⟩
      intro b' hb' hb'id
      rw [List.mem_map] at hb'
      obtain ⟨b0, hb0, hb0eq⟩ := hb'
      have hb'eq : b' = List.foldl (stepMember (ids fam) mid) b0 b.spouse := by
        rw [← hb0eq]
      have hb0id : b0.id = x := by
        rw [hb'eq] at hb'id
        rw [← hb'id]
        exact (memberFold_id _ _ _ _).symm
      have hrec0 : m.id ∈ b0.spouse := hrec b0 hb0 hb0id
      rw [hb'eq, hid']
      by_cases hxmid2 : x = mid
      · have hb0b : b0 = b := mem_id_inj f hndf hb0 hb (by rw [hb0id, hxmid2, hbid])
        rw [hb0b] at hrec0 ⊢
        rcases (memberFold_mid (ids fam) mid b.spouse b hbid).1 with h | h
        · rw [h]; exact hrec0
        · rw [h, List.mem_filter]
          refine ⟨hrec0, ?_⟩
          rw [Bool.and_eq_true]
          exact ⟨(contains_iff_mem _ _).mpr hmval, by simp [hmnm]⟩
      · exact memberFold_nonmid_superset (ids fam) mid b.spouse b0
          (by rw [hb0id]; exact hxmid2) m.id hrec0
    · rw [hxmid] at hx ⊢
      refine ⟨hmid, by rw [hid']; exact Ne.symm hmnm, ?_⟩
      intro b' hb' hb'id
      rw [List.mem_map] at hb'
      obtain ⟨b0, hb0, hb0eq⟩ := hb'
      have hb'eq : b' = List.foldl (stepMember (ids fam) mid) b0 b.spouse := by
        rw [← hb0eq]
      have hb0id : b0.id = mid := by
        rw [hb'eq] at hb'id
        rw [← hb'id]
        exact (memberFold_id _ _ _ _).symm
      have hb0b : b0 = b := mem_id_inj f hndf hb0 hb (by rw [hb0id, hbid])
      rw [hb'eq, hid', hb0b]
      rcases (memberFold_mid (ids fam) mid b.spouse b hbid).1 with h | h
      · rw [h]; exact hmb
      · rw [h, List.mem_filter]
        refine ⟨hmb, ?_⟩
        rw [Bool.and_eq_true]
        exact ⟨(contains_iff_mem _ _).mpr hmval, by simp [hmnm]⟩
  · -- the member being processed now
    have hmmid : m.id = mid := by rw [← hid']; exact hM
    have hmb2 : m = b := mem_id_inj f hndf hm hb (by rw [hmmid, hbid])
    subst hmb2
    have hxsnap : x ∈ m.spouse ∧ x ∈ ids fam ∧ x ≠ mid := by
      by_cases hex : ∃ s ∈ m.spouse, ¬((ids fam).contains s && s != mid) = true
      · have h := (memberFold_mid (ids fam) mid m.spouse m hmmid).2 hex
        rw [h, List.mem_filter, Bool.and_eq_true] at hx
        exact ⟨hx.1, (contains_iff_mem _ _).mp hx.2.1, by simpa using hx.2.2⟩
      · have hxm : x ∈ m.spouse := by
          rcases (memberFold_mid (ids fam) mid m.spouse m hmmid).1 with h | h
          · rw [h] at hx; exact hx
          · rw [h] at hx; exact (List.mem_filter.mp hx).1
        have hgood : ((ids fam).contains x && x != mid) = true := by
          by_contra hcon
          exact hex ⟨x, hxm, hcon⟩
        rw [Bool.and_eq_true] at hgood
        exact ⟨hxm, (contains_iff_mem _ _).mp hgood.1, by simpa using hgood.2⟩
    obtain ⟨hxm, hxval, hxmidne⟩ := hxsnap
    refine ⟨hxval, by rw [hid', hmmid]; exact hxmidne, ?_⟩
    intro b' hb' hb'id
    rw [List.mem_map] at hb'
    obtain ⟨b0, hb0, hb0eq⟩ := hb'
    have hb'eq : b' = List.foldl (stepMember (ids fam) mid) b0 m.spouse := by
      rw [← hb0eq]
    have hb0id : b0.id = x := by
      rw [hb'eq] at hb'id
      rw [← hb'id]
      exact (memberFold_id _ _ _ _).symm
    rw [hb'eq, hid', hmmid]
    exact memberFold_reciprocal (ids fam) mid m.spouse x b0 hxm
      ((contains_iff_mem _ _).mpr hxval) hxmidne hb0id

/-- Outer loop of spouse synchronization: processing the remaining ids
extends the `SpouseOk` postcondition from the already-processed set to
the remaining ones. -/
theorem syncSpouses_go (fam : List Member) (hnd : (ids fam).Nodup) :
    ∀ (rest P : List Nat) (f : List Member),
    (∀ r ∈ rest, r ∈ ids fam) → rest.Nodup → (∀ p ∈ P, p ∉ rest) →
    f.map eraseSp = fam.map eraseSp →
    (∀ m ∈ f, m.id ∈ P → SpouseOk (ids fam) f m) →
    (rest.foldl (processMember (ids fam)) f).map eraseSp = fam.map eraseSp ∧
    ∀ m ∈ rest.foldl (processMember (ids fam)) f, (m.id ∈ P ∨ m.id ∈ rest) →
      SpouseOk (ids fam) (rest.foldl (processMember (ids fam)) f) m := by
  intro rest
  induction rest with
  | nil =>
    intro P f _ _ _ hshape hInv
    refine ⟨hshape, fun m hm hc => ?_⟩
    rcases hc with h | h
    · exact hInv m hm h
    · cases h
  | cons mid t ih =>
    intro P f hsub hndr hdisj hshape hInv
    rw [List.foldl_cons]
    have hmid : mid ∈ ids fam := hsub mid (List.mem_cons_self _ _)
    have hmidP : mid ∉ P := fun hp => hdisj mid hp (List.mem_cons_self _ _)
    obtain ⟨hshape', hInv'⟩ := processMember_step fam f mid P hnd hshape hmid hmidP hInv
    have h1 : ∀ r ∈ t, r ∈ ids fam := fun r hr => hsub r (List.mem_cons_of_mem _ hr)
    have h2 : t.Nodup := (List.nodup_cons.mp hndr).2
    have h3 : ∀ p ∈ mid :: P, p ∉ t := by
      intro p hp
      rcases List.mem_cons.mp hp with rfl | hp'
      · exact (List.nodup_cons.mp hndr).1
      · intro hpt
        exact hdisj p hp' (List.mem_cons_of_mem _ hpt)
    have h5 : ∀ m ∈ processMember (ids fam) f mid, m.id ∈ mid :: P →
        SpouseOk (ids fam) (processMember (ids fam) f mid) m := by
      intro m hm hc
      rcases List.mem_cons.mp hc with he | hp'
      · exact hInv' m hm (Or.inr he)
      · exact hInv' m hm (Or.inl hp')
    obtain ⟨hA, hB⟩ := ih (mid :: P) (processMember (ids fam) f mid) h1 h2 h3 hshape' h5
    refine ⟨hA, ?_⟩
    intro m hm hc
    apply hB m hm
    rcases hc with hp | hr
    · exact Or.inl (List.mem_cons_of_mem _ hp)
    · rcases List.mem_cons.mp hr with he | ht
      · exact Or.inl (he ▸ List.mem_cons_self _ _)
      · exact Or.inr ht

/-- Full postcondition of `sync_spouses_in_family`: only spouse lists
change, and every record satisfies `SpouseOk` in the result. -/
theorem sync_spouses_strong (fam : List Member) (hnd : (ids fam).Nodup) :
    (sync_spouses_in_family fam).map eraseSp = fam.map eraseSp ∧
    ∀ m ∈ sync_spouses_in_family fam, SpouseOk (ids fam) (sync_spouses_in_family fam) m := by
  unfold sync_spouses_in_family
  obtain ⟨hA, hB⟩ := syncSpouses_go fam hnd (ids fam) [] fam
    (fun r hr => hr) hnd (by simp) rfl (by intro m _ h; cases h)
  refine ⟨hA, fun m hm => hB m hm (Or.inr ?_)⟩
  have hids : ids (List.foldl (processMember (ids fam)) fam (ids fam)) = ids fam :=
    ids_eq_of_eraseSp _ _ hA
  rw [← hids]
  exact (mem_ids_iff _ _).mpr ⟨m, hm, rfl⟩

/-- Claim C2: after spouse synchronization, the spouse relation is
symmetric, self-free and dangling-free: `B.id ∈ A.spouse` exactly when
`A.id ∈ B.spouse`, no record lists itself, and every listed id has a
record in the store. -/
theorem sync_spouses_symmetric_pruned (fam : List Member) (hnd : (ids fam).Nodup) :
    ∀ a ∈ sync_spouses_in_family fam, ∀ b ∈ sync_spouses_in_family fam,
      (b.id ∈ a.spouse ↔ a.id ∈ b.spouse) ∧
      a.id ∉ a.spouse ∧
      ∀ x ∈ a.spouse, x ∈ ids (sync_spouses_in_family fam) := by
  obtain ⟨hA, hB⟩ := sync_spouses_strong fam hnd
  have hids : ids (sync_spouses_in_family fam) = ids fam := ids_eq_of_eraseSp _ _ hA
  intro a ha b hb
  refine ⟨⟨?_, ?_⟩, ?_, ?_⟩
  · intro hba
    exact ((hB a ha) b.id hba).2.2 b hb rfl
  · intro hab
    exact ((hB b hb) a.id hab).2.2 a ha rfl
  · intro hself
    exact absurd rfl ((hB a ha) a.id hself).2.1
  · intro x hx
    rw [hids]
    exact ((hB a ha) x hx).1

/-- Witness for C2: a store with a dangling spouse id 7 and a
self-reference; after the sync records 1 and 2 are mutual spouses with
nothing else left. -/
theorem sync_spouses_symmetric_pruned_witness :
    (ids [bareMember 1 "A".data [] [] [2, 7, 1] [], bareMember 2 "B".data [] [] [] []]).Nodup ∧
    (((bareMember 2 "B".data [] [] [1] []).id ∈ (bareMember 1 "A".data [] [] [2] []).spouse ↔
        (bareMember 1 "A".data [] [] [2] []).id ∈ (bareMember 2 "B".data [] [] [1] []).spouse) ∧
      (bareMember 1 "A".data [] [] [2] []).id ∉ (bareMember 1 "A".data [] [] [2] []).spouse ∧
      ∀ x ∈ (bareMember 1 "A".data [] [] [2] []).spouse,
        x ∈ ids (sync_spouses_in_family
          [bareMember 1 "A".data [] [] [2, 7, 1] [], bareMember 2 "B".data [] [] [] []])) :=
  ⟨by decide,
    sync_spouses_symmetric_pruned
      [bareMember 1 "A".data [] [] [2, 7, 1] [], bareMember 2 "B".data [] [] [] []]
      (by decide)
      (bareMember 1 "A".data [] [] [2] []) (by decide)
      (bareMember 2 "B".data [] [] [1] []) (by decide)⟩

/-- Every stored id is bounded by `maxId`. -/
theorem le_maxId (fam : List Member) : ∀ m ∈ fam, m.id ≤ maxId fam := by
  suffices h : ∀ (l : List Member) (acc : Nat),
      acc ≤ l.foldl (fun a mm => max a mm.id) acc ∧
      ∀ m ∈ l, m.id ≤ l.foldl (fun a mm => max a mm.id) acc by
    intro m hm
    exact (h fam 0).2 m hm
  intro l
  induction l with
  | nil => intro acc; exact ⟨le_refl _, by simp⟩
  | cons a t ih =>
    intro acc
    rw [List.foldl_cons]
    refine ⟨le_trans (le_max_left acc a.id) (ih (max acc a.id)).1, ?_⟩
    intro m hm
    rcases List.mem_cons.mp hm with rfl | hm'
    · exact le_trans (le_max_right acc m.id) (ih (max acc m.id)).1
    · exact (ih (max acc a.id)).2 m hm'

/-- One resolver entry either leaves the counter and family untouched or
mints exactly one placeholder carrying the current counter as id. -/
theorem resolveEntry_shape (rel : RelType) (tid : Nat) (res : List Nat) (nid : Nat)
    (f : List Member) (e : Str) :
    (∃ res', resolveEntry rel tid (res, nid, f) e = (res', nid, f)) ∨
    (∃ res' ph, ph.id = nid ∧
      resolveEntry rel tid (res, nid, f) e = (res', nid + 1, f ++ [ph])) := by
  simp only [resolveEntry]
  split
  · exact Or.inl ⟨_, rfl⟩
  · split
    · exact Or.inl ⟨_, rfl⟩
    · split
      · exact Or.inl ⟨_, rfl⟩
      · exact Or.inr ⟨_, _, rfl, rfl⟩

/-- The resolver fold only appends placeholders, with fresh strictly
increasing ids taken from the counter. -/
theorem resolveFold_fresh (rel : RelType) (tid : Nat) :
    ∀ (entries : List Str) (res : List Nat) (nid : Nat) (f : List Member),
    ∃ ps : List Member,
      (entries.foldl (resolveEntry rel tid) (res, nid, f)).2.2 = f ++ ps ∧
      nid ≤ (entries.foldl (resolveEntry rel tid) (res, nid, f)).2.1 ∧
      (∀ p ∈ ps, nid ≤ p.id ∧ p.id < (entries.foldl (resolveEntry rel tid) (res, nid, f)).2.1) ∧
      (ids ps).Pairwise (· < ·) := by
  intro entries
  induction entries with
  | nil =>
    intro res nid f
    exact ⟨[], by simp, le_refl _, by simp, by simp [ids]⟩
  | cons e t ih =>
    intro res nid f
    rw [List.foldl_cons]
    rcases resolveEntry_shape rel tid res nid f e with ⟨res', hst⟩ | ⟨res', ph, hph, hst⟩
    · rw [hst]
      exact ih res' nid f
    · rw [hst]
      obtain ⟨ps', h1, h2, h3, h4⟩ := ih res' (nid + 1) (f ++ [ph])
      refine ⟨ph :: ps', ?_, le_trans (Nat.le_succ _) h2, ?_, ?_⟩
      · rw [h1, List.append_assoc]
        rfl
      · intro p hp
        rcases List.mem_cons.mp hp with rfl | hp'
        · exact ⟨le_of_eq hph.symm, lt_of_lt_of_le (hph ▸ Nat.lt_succ_self nid) h2⟩
        · obtain ⟨ha, hb⟩ := h3 p hp'
          exact ⟨le_trans (Nat.le_succ _) ha, hb⟩
      · show (ph.id :: ids ps').Pairwise (· < ·)
        rw [List.pairwise_cons]
        refine ⟨?_, h4⟩
        intro y hy
        obtain ⟨q, hq, hqid⟩ := (mem_ids_iff ps' y).mp hy
        rw [hph, ← hqid]
        exact lt_of_lt_of_le (Nat.lt_succ_self nid) (h3 q hq).1

/-- Freshness of the add-path resolver: it appends placeholders with
fresh increasing ids at or above the counter, never below the new value
of the counter. -/
theorem resolve_to_ids_fresh (val : Str) (f : List Member) (nid : Nat)
    (rel : RelType) (tid : Nat) :
    ∃ ps : List Member,
      (resolve_to_ids val f nid rel tid).2.2 = f ++ ps ∧
      nid ≤ (resolve_to_ids val f nid rel tid).2.1 ∧
      (∀ p ∈ ps, nid ≤ p.id ∧ p.id < (resolve_to_ids val f nid rel tid).2.1) ∧
      (ids ps).Pairwise (· < ·) := by
  unfold resolve_to_ids
  by_cases hv : val.isEmpty = true
  · rw [if_pos hv]
    exact ⟨[], by simp, le_refl _, by simp, by simp [ids]⟩
  · rw [if_neg hv]
    exact resolveFold_fresh rel tid (splitOnComma val) [] nid f

/-- Chaining a further resolver call onto an already-extended family
keeps the extension shape. -/
theorem resolve_extend (v : Str) (rel : RelType) (tid lo nid : Nat)
    (base ps : List Member) (hlon : lo ≤ nid)
    (hps : ∀ p ∈ ps, lo ≤ p.id ∧ p.id < nid)
    (hpw : (ids ps).Pairwise (· < ·)) :
    ∃ ps' : List Member,
      (resolve_to_ids v (base ++ ps) nid rel tid).2.2 = base ++ ps' ∧
      nid ≤ (resolve_to_ids v (base ++ ps) nid rel tid).2.1 ∧
      (∀ p ∈ ps', lo ≤ p.id ∧ p.id < (resolve_to_ids v (base ++ ps) nid rel tid).2.1) ∧
      (ids ps').Pairwise (· < ·) := by
  obtain ⟨q, hq1, hq2, hq3, hq4⟩ := resolve_to_ids_fresh v (base ++ ps) nid rel tid
  refine ⟨ps ++ q, by rw [hq1, List.append_assoc], hq2, ?_, ?_⟩
  · intro p hp
    rcases List.mem_append.mp hp with h | h
    · obtain ⟨h1, h2⟩ := hps p h
      exact ⟨h1, lt_of_lt_of_le h2 hq2⟩
    · obtain ⟨h1, h2⟩ := hq3 p h
      exact ⟨le_trans hlon h1, h2⟩
  · unfold ids
    rw [List.map_append, List.pairwise_append]
    refine ⟨hpw, hq4, ?_⟩
    intro a ha b hb
    obtain ⟨pa, hpa, hpaid⟩ := (mem_ids_iff ps a).mp ha
    obtain ⟨pb, hpb, hpbid⟩ := (mem_ids_iff q b).mp hb
    rw [← hpaid, ← hpbid]
    exact lt_of_lt_of_le (hps pa hpa).2 (hq3 pb hpb).1

/-- The resolution stage of `add_member` appends only placeholders, all
with fresh increasing ids strictly above `new_id = maxId fam + 1`. -/
theorem add_member_resolved_fresh (form : AddForm) (fam : List Member) :
    ∃ ps : List Member, (add_member_resolved form fam).2 = fam ++ ps ∧
      (∀ p ∈ ps, maxId fam + 1 + 1 ≤ p.id) ∧ (ids ps).Pairwise (· < ·) := by
  simp only [add_member_resolved]
  obtain ⟨p1, h11, h12, h13, h14⟩ := resolve_to_ids_fresh form.parents fam
    (maxId fam + 1 + 1) RelType.parents (maxId fam + 1)
  rw [h11]
  obtain ⟨p2, h21, h22, h23, h24⟩ := resolve_extend form.children RelType.children
    (maxId fam + 1) (maxId fam + 1 + 1) _ fam p1 h12 h13 h14
  rw [h21]
  obtain ⟨p3, h31, h32, h33, h34⟩ := resolve_extend form.siblings RelType.siblings
    (maxId fam + 1) (maxId fam + 1 + 1) _ fam p2 (le_trans h12 h22) h23 h24
  rw [h31]
  obtain ⟨p4, h41, h42, h43, h44⟩ := resolve_extend form.spouse RelType.spouse
    (maxId fam + 1) (maxId fam + 1 + 1) _ fam p3 (le_trans (le_trans h12 h22) h32) h33 h34
  rw [h41]
  exact ⟨p4, rfl, fun p hp => (h43 p hp).1, h44⟩

/-- A fold whose every step keeps the id list keeps the id list. -/
theorem ids_foldl_preserved {α : Type} (step : List Member → α → List Member)
    (h : ∀ g x, ids (step g x) = ids g) :
    ∀ (l : List α) (g : List Member), ids (l.foldl step g) = ids g := by
  intro l
  induction l with
  | nil => intro g; rfl
  | cons a t ih =>
    intro g
    rw [List.foldl_cons, ih, h]

/-- Child propagation over one spouse pair keeps the id list. -/
theorem propagatePair_ids (g : List Member) (mid sid : Nat) :
    ids (propagatePair g mid sid) = ids g := by
  simp only [propagatePair]
  rw [ids_map_of_id_eq _ _ (fun m => by by_cases hc : (m.id == mid) = true <;> simp [hc])]
  rw [ids_map_of_id_eq _ _ (fun m => by by_cases hc : (m.id == sid) = true <;> simp [hc])]

/-- The whole child-propagation loop keeps the id list. -/
theorem propagateChildren_ids (fam : List Member) :
    ids (propagateChildren fam) = ids fam := by
  unfold propagateChildren
  apply ids_foldl_preserved
  intro g mid
  apply ids_foldl_preserved
  intro g2 sid
  by_cases hc : (ids fam).contains sid = true
  · rw [if_pos hc]; exact propagatePair_ids g2 mid sid
  · rw [if_neg hc]

/-- The add-path sibling fixup keeps the id list. -/
theorem siblingFixup_ids (f : List Member) (nid : Nat) (sibs : List Nat) :
    ids (siblingFixup f nid sibs) = ids f := by
  unfold siblingFixup
  apply ids_map_of_id_eq
  intro m
  split <;> rfl

/-- The family entering the final synchronizations of `add_member` has
unique ids (when the input store does) and contains the new id
`maxId fam + 1`. -/
theorem preSyncFamily_nodup (form : AddForm) (fam : List Member)
    (hnd : (ids fam).Nodup) :
    (ids (preSyncFamily form fam)).Nodup ∧
    (maxId fam + 1) ∈ ids (preSyncFamily form fam) := by
  obtain ⟨ps, hps1, hps2, hps3⟩ := add_member_resolved_fresh form fam
  have hids : ids (preSyncFamily form fam) =
      ids fam ++ ids ps ++ [maxId fam + 1] := by
    unfold preSyncFamily
    rw [siblingFixup_ids, propagateChildren_ids, hps1]
    unfold ids
    rw [List.map_append, List.map_append]
    rfl
  rw [hids]
  constructor
  · rw [List.nodup_append, List.nodup_append]
    refine ⟨⟨hnd, hps3.imp (fun h => Nat.ne_of_lt h), ?_⟩, by simp, ?_⟩
    · intro a ha hb
      obtain ⟨pa, hpa, hpaid⟩ := (mem_ids_iff fam a).mp ha
      obtain ⟨pb, hpb, hpbid⟩ := (mem_ids_iff ps a).mp hb
      have h1 : a ≤ maxId fam := hpaid ▸ le_maxId fam pa hpa
      have h2 : maxId fam + 1 + 1 ≤ a := hpbid ▸ hps2 pb hpb
      omega
    · intro a ha hb
      rw [List.mem_singleton] at hb
      subst hb
      rcases List.mem_append.mp ha with h | h
      · obtain ⟨pa, hpa, hpaid⟩ := (mem_ids_iff fam _).mp h
        have := hpaid ▸ le_maxId fam pa hpa
        omega
      · obtain ⟨pb, hpb, hpbid⟩ := (mem_ids_iff ps _).mp h
        have := hpbid ▸ hps2 pb hpb
        omega
  · exact List.mem_append_right _ (List.mem_singleton.mpr rfl)

/-- Amended claim C3: after `add_member` completes on a store with
duplicate-free ids, no record lists its own id as a spouse — the final
spouse synchronization prunes self references from every spouse list.
(The original all-fields, all-operations claim fails: the parents field
can keep the member's own id, see
`add_member_self_reference_in_parents`.) -/
theorem add_member_no_self_spouse (form : AddForm) (fam : List Member)
    (hnd : (ids fam).Nodup) :
    ∀ m ∈ add_member form fam, m.id ∉ m.spouse := by
  intro m hm
  unfold add_member sortFamily at hm
  rw [List.mem_insertionSort] at hm
  obtain ⟨hpre, _⟩ := preSyncFamily_nodup form fam hnd
  obtain ⟨_, hB⟩ := sync_spouses_strong (preSyncFamily form fam) hpre
  intro hself
  exact absurd rfl ((hB m hm) m.id hself).2.1

/-- Witness for the amended C3: the self-parent scenario still has a
self-free spouse list. -/
theorem add_member_no_self_spouse_witness :
    (ids ([] : List Member)).Nodup ∧
    ((⟨1, "A".data, [], [], [], "B".data, [], [], none, [], [1], [], [], [], none, []⟩ : Member).id ∉
      (⟨1, "A".data, [], [], [], "B".data, [], [], none, [], [1], [], [], [], none, []⟩ : Member).spouse) :=
  ⟨by decide,
    add_member_no_self_spouse formSelfParent [] (by decide)
      ⟨1, "A".data, [], [], [], "B".data, [], [], none, [], [1], [], [], [], none, []⟩
      (by decide)⟩

/-- Amended claim C8: the new id is `maxId + 1` — positive, absent from
the current store, present in the result, and the result keeps ids
unique.  (Ids are nevertheless reused after deleting the maximal record,
see `deleted_id_reused`.) -/
theorem add_member_id_assignment (form : AddForm) (fam : List Member)
    (hnd : (ids fam).Nodup) :
    0 < maxId fam + 1 ∧
    (maxId fam + 1) ∉ ids fam ∧
    (maxId fam + 1) ∈ ids (add_member form fam) ∧
    (ids (add_member form fam)).Nodup := by
  obtain ⟨hndp, hmemp⟩ := preSyncFamily_nodup form fam hnd
  obtain ⟨hA, _⟩ := sync_spouses_strong (preSyncFamily form fam) hndp
  have hids : ids (sync_spouses_in_family (preSyncFamily form fam)) =
      ids (preSyncFamily form fam) := ids_eq_of_eraseSp _ _ hA
  have hperm : ids (add_member form fam) =
      ids (List.insertionSort byNameLe (sync_spouses_in_family (preSyncFamily form fam))) := by
    unfold add_member sortFamily
    rfl
  have hperm2 : (ids (add_member form fam)).Perm
      (ids (sync_spouses_in_family (preSyncFamily form fam))) := by
    rw [hperm]
    exact (List.perm_insertionSort byNameLe _).map Member.id
  refine ⟨Nat.succ_pos _, ?_, ?_, ?_⟩
  · intro hmem
    obtain ⟨mr, hmr, hmrid⟩ := (mem_ids_iff fam _).mp hmem
    have := le_maxId fam mr hmr
    omega
  · refine hperm2.mem_iff.mpr ?_
    rw [hids]
    exact hmemp
  · refine (hperm2.symm).nodup ?_
    rw [hids]
    exact hndp

/-- Witness for the amended C8. -/
theorem add_member_id_assignment_witness :
    (ids [bareMember 1 "A".data [] [] [] []]).Nodup ∧
    (0 < maxId [bareMember 1 "A".data [] [] [] []] + 1 ∧
     (maxId [bareMember 1 "A".data [] [] [] []] + 1) ∉ ids [bareMember 1 "A".data [] [] [] []] ∧
     (maxId [bareMember 1 "A".data [] [] [] []] + 1) ∈
       ids (add_member formCarol [bareMember 1 "A".data [] [] [] []]) ∧
     (ids (add_member formCarol [bareMember 1 "A".data [] [] [] []])).Nodup) :=
  ⟨by decide, add_member_id_assignment formCarol [bareMember 1 "A".data [] [] [] []] (by decide)⟩

/-- Sharing a parent is symmetric. -/
theorem sharedParentB_symm (fam : List Member) (x y : Nat) :
    sharedParentB fam x y = sharedParentB fam y x := by
  unfold sharedParentB
  cases findMember fam x <;> cases findMember fam y <;> try rfl
  rename_i mx my
  rw [Bool.eq_iff_iff]
  simp only [List.any_eq_true]
  constructor
  · rintro ⟨p, h1, h2⟩
    exact ⟨p, (contains_iff_mem _ _).mp h2, (contains_iff_mem _ _).mpr h1⟩
  · rintro ⟨p, h1, h2⟩
    exact ⟨p, (contains_iff_mem _ _).mp h2, (contains_iff_mem _ _).mpr h1⟩

/-- The sibling adjacency relation is symmetric. -/
theorem adjP_symm (fam : List Member) (a b : Nat) (h : adjb fam a b = true) :
    adjb fam b a = true := by
  unfold adjb at h ⊢
  simp only [Bool.and_eq_true, Bool.or_eq_true] at h ⊢
  obtain ⟨⟨⟨hne, hca⟩, hcb⟩, hdisj⟩ := h
  refine ⟨⟨⟨?_, hcb⟩, hca⟩, ?_⟩
  · simp only [bne_iff_ne] at hne ⊢
    exact Ne.symm hne
  · rw [sharedParentB_symm]
    tauto

/-- Adjacent nodes are store ids. -/
theorem adjb_mem_ids (fam : List Member) (a b : Nat) (h : adjb fam a b = true) :
    a ∈ ids fam ∧ b ∈ ids fam := by
  unfold adjb at h
  simp only [Bool.and_eq_true] at h
  exact ⟨(contains_iff_mem _ _).mp h.1.1.2, (contains_iff_mem _ _).mp h.1.2⟩

/-- Reachability is symmetric. -/
theorem sibReach_symm {fam : List Member} {a b : Nat} (h : SibReach fam a b) :
    SibReach fam b a := by
  induction h using Relation.ReflTransGen.head_induction_on with
  | refl => exact Relation.ReflTransGen.refl
  | head hstep _ ih => exact Relation.ReflTransGen.tail ih (adjP_symm _ _ _ hstep)

/-- Reachable nodes from a store id are store ids. -/
theorem sibReach_mem_ids {fam : List Member} {a b : Nat} (h : SibReach fam a b)
    (ha : a ∈ ids fam) : b ∈ ids fam := by
  rcases Relation.ReflTransGen.cases_tail h with he | ⟨c, _, hstep⟩
  · rw [he]; exact ha
  · exact (adjb_mem_ids fam c b hstep).2

/-- Avoiding paths are ordinary paths. -/
theorem avoid_to_reach {fam : List Member} {V : List Nat} {a b : Nat}
    (h : Avoid fam V a b) : SibReach fam a b :=
  Relation.ReflTransGen.mono (fun _ _ hs => hs.1) h

/-- A smaller avoided set admits more paths. -/
theorem avoid_mono {fam : List Member} {V W : List Nat} (hVW : ∀ x ∈ V, x ∈ W)
    {a b : Nat} (h : Avoid fam W a b) : Avoid fam V a b :=
  Relation.ReflTransGen.mono (fun _ y hs => ⟨hs.1, fun hv => hs.2 (hVW y hv)⟩) h

/-- The endpoint of an avoiding path from an unvisited node is unvisited. -/
theorem avoid_not_mem {fam : List Member} {V : List Nat} {a b : Nat}
    (h : Avoid fam V a b) (ha : a ∉ V) : b ∉ V := by
  rcases Relation.ReflTransGen.cases_tail h with he | ⟨c, _, hstep⟩
  · rw [he]; exact ha
  · exact hstep.2

/-- Decomposing an avoiding path with respect to one extra avoided node:
either the path avoids it entirely, or it passes through it, in which
case the remainder starts at one of its neighbours, or it ends there. -/
theorem avoid_insert_decomp (fam : List Member) (V : List Nat) (c : Nat) :
    ∀ {s y : Nat}, Avoid fam V s y →
      Avoid fam (c :: V) s y ∨
      (∃ t, adjb fam c t = true ∧ t ∉ c :: V ∧ Avoid fam (c :: V) t y) ∨
      y = c := by
  intro s y h
  induction h using Relation.ReflTransGen.head_induction_on with
  | refl => exact Or.inl Relation.ReflTransGen.refl
  | head hstep _ ih =>
    rename_i a u hrest
    rcases ih with hu | hu | hu
    · by_cases huc : u = c
      · subst huc
        rcases Relation.ReflTransGen.cases_head hu with he | ⟨t, hstep2, htail⟩
        · exact Or.inr (Or.inr he.symm)
        · exact Or.inr (Or.inl ⟨t, hstep2.1, hstep2.2, htail⟩)
      · refine Or.inl (Relation.ReflTransGen.head ⟨hstep.1, ?_⟩ hu)
        rw [List.mem_cons]
        rintro (he | hv)
        · exact huc he
        · exact hstep.2 hv
    · exact Or.inr (Or.inl hu)
    · exact Or.inr (Or.inr hu)

/-- When the visited set is closed under adjacency, avoiding it is no
restriction for paths starting outside it. -/
theorem reach_avoid_of_closed (fam : List Member) (V : List Nat)
    (hcl : ∀ x y, x ∈ V → adjb fam x y = true → y ∈ V) :
    ∀ {a b : Nat}, SibReach fam a b → a ∉ V → Avoid fam V a b := by
  intro a b h
  induction h using Relation.ReflTransGen.head_induction_on with
  | refl => intro _; exact Relation.ReflTransGen.refl
  | head hstep _ ih =>
    rename_i x u hrest
    intro hx
    have hu : u ∉ V := fun huV => hx (hcl u x huV (adjP_symm _ _ _ hstep))
    exact Relation.ReflTransGen.head ⟨hstep, hu⟩ (ih hu)

/-- Filtering by the stricter unvisited test gives a shorter list. -/
theorem filter_unvisited_le (t V : List Nat) (c : Nat) :
    (t.filter (fun y => !(c :: V).contains y)).length ≤
      (t.filter (fun y => !V.contains y)).length := by
  induction t with
  | nil => exact le_refl _
  | cons a s ih =>
    rw [List.filter_cons, List.filter_cons]
    by_cases h1 : (!(c :: V).contains a) = true
    · have h2 : (!V.contains a) = true := by
        simp only [Bool.not_eq_true', List.contains_cons, Bool.or_eq_false_iff] at h1
        simp only [Bool.not_eq_true']
        exact h1.2
      rw [if_pos h1, if_pos h2]
      exact Nat.succ_le_succ ih
    · rw [if_neg h1]
      by_cases h2 : (!V.contains a) = true
      · rw [if_pos h2]
        exact le_trans ih (Nat.le_succ _)
      · rw [if_neg h2]
        exact ih

/-- Visiting a previously unvisited store id strictly shrinks the
unvisited count. -/
theorem filter_unvisited_lt (l V : List Nat) (c : Nat) (hc : c ∈ l) (hcv : c ∉ V) :
    (l.filter (fun y => !(c :: V).contains y)).length <
      (l.filter (fun y => !V.contains y)).length := by
  induction l with
  | nil => cases hc
  | cons a t ih =>
    rw [List.filter_cons, List.filter_cons]
    by_cases hac : a = c
    · subst hac
      have h1 : (!(a :: V).contains a) = false := by simp
      have h2 : (!V.contains a) = true := by
        simp only [Bool.not_eq_true']
        rw [Bool.eq_false_iff]
        intro hcon
        exact hcv ((contains_iff_mem _ _).mp hcon)
      rw [h1, h2]
      simp only [Bool.false_eq_true, if_false, if_true]
      exact Nat.lt_succ_of_le (filter_unvisited_le t V a)
    · have hct : c ∈ t := by
        rcases List.mem_cons.mp hc with he | h
        · exact absurd he.symm hac
        · exact h
      have hsame : ((c :: V).contains a) = (V.contains a) := by
        rw [List.contains_cons]
        have : (a == c) = false := by simp [hac]
        rw [this, Bool.false_or]
      by_cases h2 : (!V.contains a) = true
      · have h1 : (!(c :: V).contains a) = true := by rw [hsame]; exact h2
        rw [if_pos h1, if_pos h2]
        exact Nat.succ_lt_succ (ih hct)
      · have h1 : ¬(!(c :: V).contains a) = true := by rw [hsame]; exact h2
        rw [if_neg h1, if_neg h2]
        exact ih hct

/-- Membership in the filtered neighbour push of the DFS. -/
theorem mem_nbrs_filter (fam : List Member) (cur : Nat) (V : List Nat) (t : Nat) :
    t ∈ (nbrs fam cur).filter (fun y => !(cur :: V).contains y) ↔
      (adjb fam cur t = true ∧ t ∉ cur :: V) := by
  rw [List.mem_filter]
  unfold nbrs
  rw [List.mem_filter]
  constructor
  · rintro ⟨⟨_, h2⟩, h3⟩
    refine ⟨h2, ?_⟩
    intro hmem
    rw [Bool.not_eq_true'] at h3
    rw [← contains_iff_mem, h3] at hmem
    exact Bool.false_ne_true hmem
  · rintro ⟨h1, h2⟩
    refine ⟨⟨(adjb_mem_ids fam cur t h1).2, h1⟩, ?_⟩
    simp only [Bool.not_eq_true']
    rw [Bool.eq_false_iff]
    intro hcon
    exact h2 ((contains_iff_mem _ _).mp hcon)

/-- The effect of one DFS visit on the collected set, as an equivalence
between before and after views of the reachable frontier. -/
theorem dfsFrom_visit (fam : List Member) (V rest : List Nat) (cur : Nat)
    (hcv : cur ∉ V) (hci : cur ∈ ids fam) (y : Nat) :
    (y = cur ∨ DfsFrom fam (cur :: V)
        ((nbrs fam cur).filter (fun z => !(cur :: V).contains z) ++ rest) y) ↔
      DfsFrom fam V (cur :: rest) y := by
  constructor
  · rintro (hy | ⟨s, hs, hsi, hsv, hpath⟩)
    · refine ⟨cur, List.mem_cons_self _ _, hci, hcv, ?_⟩
      rw [hy]
      exact Relation.ReflTransGen.refl
    · have hsV : s ∉ V := fun h => hsv (List.mem_cons_of_mem _ h)
      rcases List.mem_append.mp hs with hnb | hr
      · obtain ⟨hadj, _⟩ := (mem_nbrs_filter fam cur V s).mp hnb
        refine ⟨cur, List.mem_cons_self _ _, hci, hcv, ?_⟩
        exact Relation.ReflTransGen.head ⟨hadj, hsV⟩
          (avoid_mono (fun x hx => List.mem_cons_of_mem _ hx) hpath)
      · exact ⟨s, List.mem_cons_of_mem _ hr, hsi, hsV,
          avoid_mono (fun x hx => List.mem_cons_of_mem _ hx) hpath⟩
  · rintro ⟨s, hs, hsi, hsv, hpath⟩
    rcases avoid_insert_decomp fam V cur hpath with hp | ⟨t, hadj, htv, hp⟩ | hp
    · by_cases hsc : s = cur
      · subst hsc
        rcases Relation.ReflTransGen.cases_head hp with he | ⟨t, hstep2, htail⟩
        · exact Or.inl he.symm
        · refine Or.inr ⟨t, ?_, (adjb_mem_ids fam s t hstep2.1).2, hstep2.2, htail⟩
          exact List.mem_append_left _ ((mem_nbrs_filter fam s V t).mpr ⟨hstep2.1, hstep2.2⟩)
      · have hs' : s ∈ rest := by
          rcases List.mem_cons.mp hs with he | h
          · exact absurd he hsc
          · exact h
        refine Or.inr ⟨s, List.mem_append_right _ hs', hsi, ?_, hp⟩
        rw [List.mem_cons]
        rintro (he | hv)
        · exact hsc he
        · exact hsv hv
    · refine Or.inr ⟨t, ?_, (adjb_mem_ids fam cur t hadj).2, htv, hp⟩
      exact List.mem_append_left _ ((mem_nbrs_filter fam cur V t).mpr ⟨hadj, htv⟩)
    · exact Or.inl hp

/-- Full characterization of the DFS while-loop, for sufficient fuel: the
final visited set adds exactly the nodes collectable from the stack, the
component collects exactly those same nodes, and the component stays
duplicate-free. -/
theorem dfsLoop_spec (fam : List Member) :
    ∀ (fuel : Nat) (stack visited comp : List Nat),
    dfsMeasure fam visited stack < fuel →
    (∀ x ∈ comp, x ∈ visited) →
    (∀ y, (y ∈ (dfsLoop fam fuel stack visited comp).1 ↔
        y ∈ visited ∨ DfsFrom fam visited stack y) ∧
      (y ∈ (dfsLoop fam fuel stack visited comp).2 ↔
        y ∈ comp ∨ DfsFrom fam visited stack y)) ∧
    (comp.Nodup → (dfsLoop fam fuel stack visited comp).2.Nodup) := by
  intro fuel
  induction fuel with
  | zero =>
    intro stack visited comp hflt _hsub
    exact absurd hflt (by omega)
  | succ n ih =>
    intro stack visited comp hflt hsub
    cases stack with
    | nil =>
      simp only [dfsLoop]
      refine ⟨fun y => ⟨⟨fun h => Or.inl h, ?_⟩, ⟨fun h => Or.inl h, ?_⟩⟩, fun hnd => hnd⟩
      · rintro (h | ⟨s, hs, _⟩)
        · exact h
        · cases hs
      · rintro (h | ⟨s, hs, _⟩)
        · exact h
        · cases hs
    | cons cur rest =>
      simp only [dfsLoop]
      by_cases hskip : (visited.contains cur || !(ids fam).contains cur) = true
      · rw [if_pos hskip]
        have hmeas : dfsMeasure fam visited rest < n := by
          unfold dfsMeasure at hflt ⊢
          rw [List.length_cons] at hflt
          omega
        obtain ⟨H1, H2⟩ := ih rest visited comp hmeas hsub
        have hskip' : cur ∈ visited ∨ cur ∉ ids fam := by
          rcases Bool.or_eq_true_iff.mp hskip with h | h
          · exact Or.inl ((contains_iff_mem _ _).mp h)
          · right
            intro hmem
            rw [Bool.not_eq_true'] at h
            rw [← contains_iff_mem, h] at hmem
            exact Bool.false_ne_true hmem
        have hDfs : ∀ y, DfsFrom fam visited (cur :: rest) y ↔ DfsFrom fam visited rest y := by
          intro y
          constructor
          · rintro ⟨s, hs, hsi, hsv, hp⟩
            rcases List.mem_cons.mp hs with he | hr
            · rcases hskip' with hv | hni
              · exact absurd (he ▸ hv) (he ▸ hsv)
              · exact absurd (he ▸ hsi) (he ▸ hni)
            · exact ⟨s, hr, hsi, hsv, hp⟩
          · rintro ⟨s, hs, hsi, hsv, hp⟩
            exact ⟨s, List.mem_cons_of_mem _ hs, hsi, hsv, hp⟩
        refine ⟨fun y => ⟨?_, ?_⟩, H2⟩
        · rw [hDfs y]
          exact (H1 y).1
        · rw [hDfs y]
          exact (H1 y).2
      · rw [if_neg hskip]
        have hcv : cur ∉ visited ∧ cur ∈ ids fam := by
          constructor
          · intro hmem
            exact hskip (Bool.or_eq_true_iff.mpr (Or.inl ((contains_iff_mem _ _).mpr hmem)))
          · by_contra hni
            refine hskip (Bool.or_eq_true_iff.mpr (Or.inr ?_))
            simp only [Bool.not_eq_true']
            rw [Bool.eq_false_iff]
            intro hcon
            exact hni ((contains_iff_mem _ _).mp hcon)
        have hmeas : dfsMeasure fam (cur :: visited)
            ((nbrs fam cur).filter (fun y => !(cur :: visited).contains y) ++ rest) < n := by
          have hlt := filter_unvisited_lt (ids fam) visited cur hcv.2 hcv.1
          have hle : ((nbrs fam cur).filter
              (fun y => !(cur :: visited).contains y)).length ≤ fam.length := by
            calc ((nbrs fam cur).filter (fun y => !(cur :: visited).contains y)).length
                ≤ (nbrs fam cur).length := List.length_filter_le _ _
              _ ≤ (ids fam).length := List.length_filter_le _ _
              _ = fam.length := by unfold ids; rw [List.length_map]
          unfold dfsMeasure at hflt ⊢
          rw [List.length_append] at *
          rw [List.length_cons] at hflt
          have hmul : ((ids fam).filter
                (fun y => !(cur :: visited).contains y)).length * (fam.length + 1) +
              (fam.length + 1) ≤
              ((ids fam).filter (fun y => !visited.contains y)).length * (fam.length + 1) := by
            have h1 : ((ids fam).filter (fun y => !(cur :: visited).contains y)).length + 1 ≤
                ((ids fam).filter (fun y => !visited.contains y)).length := hlt
            calc ((ids fam).filter
                  (fun y => !(cur :: visited).contains y)).length * (fam.length + 1) +
                (fam.length + 1)
                = (((ids fam).filter
                  (fun y => !(cur :: visited).contains y)).length + 1) * (fam.length + 1) := by
                  ring
              _ ≤ ((ids fam).filter
                  (fun y => !visited.contains y)).length * (fam.length + 1) :=
                  Nat.mul_le_mul_right _ h1
          omega
        have hsub' : ∀ x ∈ cur :: comp, x ∈ cur :: visited := by
          intro x hx
          rcases List.mem_cons.mp hx with he | hc
          · exact he ▸ List.mem_cons_self _ _
          · exact List.mem_cons_of_mem _ (hsub x hc)
        obtain ⟨H1, H2⟩ := ih _ (cur :: visited) (cur :: comp) hmeas hsub'
        refine ⟨fun y => ⟨?_, ?_⟩, fun hnd => ?_⟩
        · rw [(H1 y).1, List.mem_cons]
          constructor
          · rintro ((he | hv) | hd)
            · exact Or.inr ((dfsFrom_visit fam visited rest cur hcv.1 hcv.2 y).mp (Or.inl he))
            · exact Or.inl hv
            · exact Or.inr ((dfsFrom_visit fam visited rest cur hcv.1 hcv.2 y).mp (Or.inr hd))
          · rintro (hv | hd)
            · exact Or.inl (Or.inr hv)
            · rcases (dfsFrom_visit fam visited rest cur hcv.1 hcv.2 y).mpr hd with he | hd'
              · exact Or.inl (Or.inl he)
              · exact Or.inr hd'
        · rw [(H1 y).2, List.mem_cons]
          constructor
          · rintro ((he | hc) | hd)
            · exact Or.inr ((dfsFrom_visit fam visited rest cur hcv.1 hcv.2 y).mp (Or.inl he))
            · exact Or.inl hc
            · exact Or.inr ((dfsFrom_visit fam visited rest cur hcv.1 hcv.2 y).mp (Or.inr hd))
          · rintro (hc | hd)
            · exact Or.inl (Or.inr hc)
            · rcases (dfsFrom_visit fam visited rest cur hcv.1 hcv.2 y).mpr hd with he | hd'
              · exact Or.inl (Or.inl he)
              · exact Or.inr hd'
        · refine H2 ?_
          rw [List.nodup_cons]
          exact ⟨fun hc => hcv.1 (hsub cur hc), hnd⟩

/-- Assigning component siblings only changes the siblings field. -/
theorem assignSiblings_eraseSib (f : List Member) (C : List Nat) :
    (assignSiblings f C).map eraseSib = f.map eraseSib := by
  unfold assignSiblings
  rw [List.map_map]
  apply List.map_congr_left
  intro m _
  show eraseSib (if C.contains m.id then _ else m) = eraseSib m
  split <;> rfl

/-- Records with equal siblings-blanked forms share the id. -/
theorem eraseSib_id_eq {a b : Member} (h : eraseSib a = eraseSib b) : a.id = b.id := by
  have h2 := congrArg Member.id h
  exact h2

/-- Stores with equal siblings-blanked forms have equal id lists. -/
theorem ids_eq_of_eraseSib (f g : List Member) (h : f.map eraseSib = g.map eraseSib) :
    ids f = ids g :=
  calc ids f = ids (f.map eraseSib) := (ids_map_of_id_eq eraseSib f (fun _ => rfl)).symm
    _ = ids (g.map eraseSib) := by rw [h]
    _ = ids g := ids_map_of_id_eq eraseSib g (fun _ => rfl)

/-- Insertion sort of a duplicate-free list of naturals is strictly
sorted. -/
theorem insertionSort_sorted_lt (l : List Nat) (hnd : l.Nodup) :
    (List.insertionSort (· ≤ ·) l).Sorted (· < ·) := by
  have hs : (List.insertionSort (· ≤ ·) l).Sorted (· ≤ ·) := List.sorted_insertionSort _ _
  have hp : (List.insertionSort (· ≤ ·) l).Nodup :=
    ((List.perm_insertionSort _ l).nodup_iff).mpr hnd
  exact (hs.and hp).imp (fun h => lt_of_le_of_ne h.1 h.2)

/-- Outer loop of sibling synchronization: processing the remaining ids,
with a visited set that is a union of already-assigned components,
assigns every record its sorted component. -/
theorem syncLoop_spec (fam0 : List Member) :
    ∀ (order V : List Nat) (f : List Member),
    (∀ x ∈ order, x ∈ ids fam0) →
    (∀ x ∈ V, x ∈ ids fam0) →
    (∀ x y, x ∈ V → adjb fam0 x y = true → y ∈ V) →
    f.map eraseSib = fam0.map eraseSib →
    (∀ m ∈ f, m.id ∈ V → GoodSiblings fam0 m) →
    (syncLoop fam0 order V f).map eraseSib = fam0.map eraseSib ∧
    ∀ m ∈ syncLoop fam0 order V f, (m.id ∈ V ∨ m.id ∈ order) → GoodSiblings fam0 m := by
  intro order
  induction order with
  | nil =>
    intro V f _ _ _ hshape hInv
    refine ⟨hshape, fun m hm hc => ?_⟩
    rcases hc with h | h
    · exact hInv m hm h
    · cases h
  | cons mid rest ih =>
    intro V f hord hVsub hVcl hshape hInv
    simp only [syncLoop]
    by_cases hv : (V.contains mid) = true
    · rw [if_pos hv]
      obtain ⟨hA, hB⟩ := ih V f (fun x hx => hord x (List.mem_cons_of_mem _ hx))
        hVsub hVcl hshape hInv
      refine ⟨hA, fun m hm hc => hB m hm ?_⟩
      rcases hc with h | h
      · exact Or.inl h
      · rcases List.mem_cons.mp h with he | hr
        · exact Or.inl (he ▸ (contains_iff_mem _ _).mp hv)
        · exact Or.inr hr
    · rw [if_neg hv]
      have hmidV : mid ∉ V := fun h => hv ((contains_iff_mem _ _).mpr h)
      have hmidI : mid ∈ ids fam0 := hord mid (List.mem_cons_self _ _)
      obtain ⟨HC, HN⟩ := dfsLoop_spec fam0 (dfsMeasure fam0 V [mid] + 1) [mid] V []
        (by omega) (by intro x hx; cases hx)
      have hDfsIff : ∀ y, DfsFrom fam0 V [mid] y ↔ SibReach fam0 mid y := by
        intro y
        constructor
        · rintro ⟨s, hs, _, _, hp⟩
          rcases List.mem_cons.mp hs with he | h
          · exact he ▸ avoid_to_reach hp
          · cases h
        · intro hr
          exact ⟨mid, List.mem_cons_self _ _, hmidI, hmidV,
            reach_avoid_of_closed fam0 V hVcl hr hmidV⟩
      have hCmem : ∀ y,
          y ∈ (dfsLoop fam0 (dfsMeasure fam0 V [mid] + 1) [mid] V []).2 ↔
          SibReach fam0 mid y := by
        intro y
        rw [(HC y).2, hDfsIff y]
        simp
      have hVmem : ∀ y,
          y ∈ (dfsLoop fam0 (dfsMeasure fam0 V [mid] + 1) [mid] V []).1 ↔
          y ∈ V ∨ SibReach fam0 mid y := by
        intro y
        rw [(HC y).1, hDfsIff y]
      have hCnd : (dfsLoop fam0 (dfsMeasure fam0 V [mid] + 1) [mid] V []).2.Nodup :=
        HN (by simp)
      have hV'sub : ∀ x ∈ (dfsLoop fam0 (dfsMeasure fam0 V [mid] + 1) [mid] V []).1,
          x ∈ ids fam0 := by
        intro x hx
        rcases (hVmem x).mp hx with h | h
        · exact hVsub x h
        · exact sibReach_mem_ids h hmidI
      have hV'cl : ∀ x y, x ∈ (dfsLoop fam0 (dfsMeasure fam0 V [mid] + 1) [mid] V []).1 →
          adjb fam0 x y = true → y ∈ (dfsLoop fam0 (dfsMeasure fam0 V [mid] + 1) [mid] V []).1 := by
        intro x y hx hadj
        rcases (hVmem x).mp hx with h | h
        · exact (hVmem y).mpr (Or.inl (hVcl x y h hadj))
        · exact (hVmem y).mpr (Or.inr (Relation.ReflTransGen.tail h hadj))
      have hshape' : (assignSiblings f
          (dfsLoop fam0 (dfsMeasure fam0 V [mid] + 1) [mid] V []).2).map eraseSib =
          fam0.map eraseSib := (assignSiblings_eraseSib f _).trans hshape
      have hInv' : ∀ m ∈ assignSiblings f
          (dfsLoop fam0 (dfsMeasure fam0 V [mid] + 1) [mid] V []).2,
          m.id ∈ (dfsLoop fam0 (dfsMeasure fam0 V [mid] + 1) [mid] V []).1 →
          GoodSiblings fam0 m := by
        intro m' hm' hmV'
        unfold assignSiblings at hm'
        rw [List.mem_map] at hm'
        obtain ⟨m, hm, hmeq⟩ := hm'
        by_cases hc : ((dfsLoop fam0 (dfsMeasure fam0 V [mid] + 1) [mid] V []).2.contains m.id) = true
        · have heq2 : m' = { m with siblings := List.insertionSort (· ≤ ·) ((dfsLoop fam0 (dfsMeasure fam0 V [mid] + 1) [mid] V []).2.filter (fun j => j != m.id)) } := by
            rw [← hmeq, if_pos hc]
          have hmidm : SibReach fam0 mid m.id :=
            (hCmem m.id).mp ((contains_iff_mem _ _).mp hc)
          constructor
          · rw [heq2]
            exact insertionSort_sorted_lt _ (hCnd.filter _)
          · intro j
            rw [heq2]
            show j ∈ List.insertionSort (· ≤ ·) _ ↔ _
            rw [List.mem_insertionSort, List.mem_filter]
            constructor
            · rintro ⟨hjC, hjne⟩
              refine ⟨Relation.ReflTransGen.trans (sibReach_symm hmidm)
                ((hCmem j).mp hjC), ?_⟩
              simpa using hjne
            · rintro ⟨hr, hjne⟩
              refine ⟨(hCmem j).mpr (Relation.ReflTransGen.trans hmidm hr), ?_⟩
              simpa using hjne
        · have heq2 : m' = m := by rw [← hmeq, if_neg hc]
          subst heq2
          rcases (hVmem m'.id).mp hmV' with h | h
          · exact hInv m' hm h
          · exact absurd ((contains_iff_mem _ _).mpr ((hCmem m'.id).mpr h)) hc
      obtain ⟨hA, hB⟩ := ih (dfsLoop fam0 (dfsMeasure fam0 V [mid] + 1) [mid] V []).1
        (assignSiblings f (dfsLoop fam0 (dfsMeasure fam0 V [mid] + 1) [mid] V []).2)
        (fun x hx => hord x (List.mem_cons_of_mem _ hx)) hV'sub hV'cl hshape' hInv'
      refine ⟨hA, fun m hm hc => hB m hm ?_⟩
      rcases hc with h | h
      · exact Or.inl ((hVmem m.id).mpr (Or.inl h))
      · rcases List.mem_cons.mp h with he | hr
        · exact Or.inl ((hVmem m.id).mpr (Or.inr (he ▸ Relation.ReflTransGen.refl)))
        · exact Or.inr hr

/-- Full postcondition of `sync_siblings_in_family`: only siblings lists
change, and every record ends with the sorted enumeration of its
connected component minus itself. -/
theorem sync_siblings_strong (fam : List Member) :
    (sync_siblings_in_family fam).map eraseSib = fam.map eraseSib ∧
    ∀ m ∈ sync_siblings_in_family fam, GoodSiblings fam m := by
  unfold sync_siblings_in_family
  obtain ⟨hA, hB⟩ := syncLoop_spec fam (ids fam) [] fam (fun x hx => hx) (by simp)
    (by intro x y hx; cases hx) rfl (by intro m _ h; cases h)
  refine ⟨hA, fun m hm => hB m hm (Or.inr ?_)⟩
  have hids : ids (syncLoop fam (ids fam) [] fam) = ids fam := ids_eq_of_eraseSib _ _ hA
  rw [← hids]
  exact (mem_ids_iff _ _).mpr ⟨m, hm, rfl⟩

/-- C1: after `sync_siblings_in_family`, every record's siblings field is
exactly the strictly sorted list of the ids in its connected component
(over explicit sibling edges between existing ids and shared-parent
pairs) minus its own id; any prior sibling edge not explainable by those
sources is erased. -/
theorem sync_siblings_sets_component (fam : List Member) (m : Member)
    (hm : m ∈ sync_siblings_in_family fam) :
    m.siblings.Sorted (· < ·) ∧
      ∀ j, j ∈ m.siblings ↔ SibReach fam m.id j ∧ j ≠ m.id :=
  (sync_siblings_strong fam).2 m hm

theorem sync_siblings_sets_component_witness :
    (bareMember 1 "A".data [10] [] [] [2, 3]).siblings.Sorted (· < ·) ∧
      ∀ j, j ∈ (bareMember 1 "A".data [10] [] [] [2, 3]).siblings ↔
        SibReach witFamC1 (bareMember 1 "A".data [10] [] [] [2, 3]).id j ∧
          j ≠ (bareMember 1 "A".data [10] [] [] [2, 3]).id :=
  sync_siblings_sets_component witFamC1 (bareMember 1 "A".data [10] [] [] [2, 3]) (by decide)

/-- Lookup is determined by the siblings-blanked store, up to blanking. -/
theorem findMember_eraseSib {f g : List Member} (h : f.map eraseSib = g.map eraseSib)
    (i : Nat) :
    Option.map eraseSib (findMember f i) = Option.map eraseSib (findMember g i) := by
  induction f generalizing g with
  | nil =>
    cases g with
    | nil => rfl
    | cons b g' => simp at h
  | cons a f' ih =>
    cases g with
    | nil => simp at h
    | cons b g' =>
      simp only [List.map_cons, List.cons.injEq] at h
      obtain ⟨h1, h2⟩ := h
      have hid : a.id = b.id := eraseSib_id_eq h1
      unfold findMember
      by_cases hc : a.id = i
      · rw [List.find?_cons_of_pos _ (by simp [hc]),
          List.find?_cons_of_pos _ (by simp [← hid, hc])]
        simp [h1]
      · rw [List.find?_cons_of_neg _ (by simp [hc]),
          List.find?_cons_of_neg _ (by simp [← hid, hc])]
        exact ih h2

/-- Shared-parent adjacency only depends on the siblings-blanked store. -/
theorem sharedParentB_eraseSib {f g : List Member} (h : f.map eraseSib = g.map eraseSib)
    (x y : Nat) : sharedParentB f x y = sharedParentB g x y := by
  have hx := findMember_eraseSib h x
  have hy := findMember_eraseSib h y
  unfold sharedParentB
  cases hfx : findMember f x with
  | none =>
    rw [hfx] at hx
    cases hgx : findMember g x with
    | none => rfl
    | some mg => rw [hgx] at hx; simp at hx
  | some mf =>
    rw [hfx] at hx
    cases hgx : findMember g x with
    | none => rw [hgx] at hx; simp at hx
    | some mg =>
      rw [hgx] at hx
      simp at hx
      cases hfy : findMember f y with
      | none =>
        rw [hfy] at hy
        cases hgy : findMember g y with
        | none => rfl
        | some ng => rw [hgy] at hy; simp at hy
      | some nf =>
        rw [hfy] at hy
        cases hgy : findMember g y with
        | none => rw [hgy] at hy; simp at hy
        | some ng =>
          rw [hgy] at hy
          simp at hy
          have hp1 : mf.parents = mg.parents := by
            have h0 := congrArg Member.parents hx
            simpa [eraseSib] using h0
          have hp2 : nf.parents = ng.parents := by
            have h0 := congrArg Member.parents hy
            simpa [eraseSib] using h0
          simp [hp1, hp2]

/-- A store id always has a first matching record. -/
theorem findMember_exists {f : List Member} {x : Nat} (hx : x ∈ ids f) :
    ∃ m, findMember f x = some m ∧ m ∈ f ∧ m.id = x := by
  obtain ⟨mr, hmr, hmid⟩ := (mem_ids_iff f x).mp hx
  have hsome : (f.find? (fun m => m.id == x)).isSome := by
    rw [List.find?_isSome]
    exact ⟨mr, hmr, by simp [hmid]⟩
  cases hfm : f.find? (fun m => m.id == x) with
  | none => rw [hfm] at hsome; simp at hsome
  | some m =>
    refine ⟨m, hfm, List.mem_of_find?_eq_some hfm, ?_⟩
    have := List.find?_some hfm
    simpa using this

/-- In a synchronized store, one adjacency step is witnessed by
reachability in the original graph. -/
theorem adj_step_back {F fam : List Member}
    (hmap : F.map eraseSib = fam.map eraseSib)
    (hg : ∀ m ∈ F, GoodSiblings fam m) {a b : Nat}
    (h : AdjP F a b) : SibReach fam a b := by
  unfold AdjP adjb at h
  simp only [Bool.and_eq_true, Bool.or_eq_true_iff] at h
  obtain ⟨⟨⟨hne, haF⟩, hbF⟩, hcase⟩ := h
  have hne' : a ≠ b := by simpa using hne
  rcases hcase with (hcase | hcase) | hcase
  · obtain ⟨m, hfm, hbm⟩ : ∃ m, findMember F a = some m ∧ b ∈ m.siblings := by
      unfold sibEntry at hcase
      cases hfm : findMember F a with
      | none => rw [hfm] at hcase; cases hcase
      | some m =>
        rw [hfm] at hcase
        exact ⟨m, rfl, (contains_iff_mem _ _).mp hcase⟩
    have hmF : m ∈ F := List.mem_of_find?_eq_some hfm
    have hmid : m.id = a := by have := List.find?_some hfm; simpa using this
    have := ((hg m hmF).2 b).mp hbm
    rw [hmid] at this
    exact this.1
  · obtain ⟨m, hfm, hbm⟩ : ∃ m, findMember F b = some m ∧ a ∈ m.siblings := by
      unfold sibEntry at hcase
      cases hfm : findMember F b with
      | none => rw [hfm] at hcase; cases hcase
      | some m =>
        rw [hfm] at hcase
        exact ⟨m, rfl, (contains_iff_mem _ _).mp hcase⟩
    have hmF : m ∈ F := List.mem_of_find?_eq_some hfm
    have hmid : m.id = b := by have := List.find?_some hfm; simpa using this
    have := ((hg m hmF).2 a).mp hbm
    rw [hmid] at this
    exact sibReach_symm this.1
  · have hids : ids F = ids fam := ids_eq_of_eraseSib _ _ hmap
    have haf : (ids fam).contains a = true := by rw [← hids]; exact haF
    have hbf : (ids fam).contains b = true := by rw [← hids]; exact hbF
    have h4 : sharedParentB fam a b = true := by
      rw [← sharedParentB_eraseSib hmap]
      exact hcase
    have hstep : AdjP fam a b := by
      unfold AdjP adjb
      rw [hne, haf, hbf, h4]
      simp
    exact Relation.ReflTransGen.single hstep

/-- Conversely, one adjacency step of the original graph is witnessed by
a step in the synchronized store. -/
theorem adj_step_fwd {F fam : List Member}
    (hmap : F.map eraseSib = fam.map eraseSib)
    (hg : ∀ m ∈ F, GoodSiblings fam m) {a b : Nat}
    (h : AdjP fam a b) : SibReach F a b := by
  have hids : ids F = ids fam := ids_eq_of_eraseSib _ _ hmap
  have hmem := adjb_mem_ids fam a b h
  have hne : a ≠ b := by
    unfold AdjP adjb at h
    simp only [Bool.and_eq_true] at h
    simpa using h.1.1.1
  obtain ⟨m, hfm, hmF, hmid⟩ := findMember_exists (x := a) (f := F) (hids ▸ hmem.1)
  have hbm : b ∈ m.siblings := by
    rw [(hg m hmF).2 b, hmid]
    exact ⟨Relation.ReflTransGen.single h, Ne.symm hne⟩
  have h1 : (a != b) = true := by simpa using hne
  have h2 : (ids F).contains a = true := by
    rw [hids]
    exact (contains_iff_mem _ _).mpr hmem.1
  have h3 : (ids F).contains b = true := by
    rw [hids]
    exact (contains_iff_mem _ _).mpr hmem.2
  have h4 : sibEntry F a b = true := by
    unfold sibEntry
    rw [hfm]
    exact (contains_iff_mem _ _).mpr hbm
  have hstep : AdjP F a b := by
    unfold AdjP adjb
    rw [h1, h2, h3, h4]
    simp
  exact Relation.ReflTransGen.single hstep

/-- Reachability in the synchronized store coincides with reachability in
the original store. -/
theorem sibReach_sync_iff {F fam : List Member}
    (hmap : F.map eraseSib = fam.map eraseSib)
    (hg : ∀ m ∈ F, GoodSiblings fam m) (a b : Nat) :
    SibReach F a b ↔ SibReach fam a b := by
  constructor
  · intro h
    induction h with
    | refl => exact Relation.ReflTransGen.refl
    | tail _ h2 ih => exact ih.trans (adj_step_back hmap hg h2)
  · intro h
    induction h with
    | refl => exact Relation.ReflTransGen.refl
    | tail _ h2 ih => exact ih.trans (adj_step_fwd hmap hg h2)

/-- Two strictly sorted lists with the same members are equal. -/
theorem sorted_lt_eq_of_iff {l1 l2 : List Nat} (h1 : l1.Sorted (· < ·))
    (h2 : l2.Sorted (· < ·)) (hm : ∀ j, j ∈ l1 ↔ j ∈ l2) : l1 = l2 := by
  haveI : IsAntisymm Nat (· < ·) := ⟨fun a b h h2 => absurd h2 (Nat.lt_asymm h)⟩
  have nd1 : l1.Nodup := List.Pairwise.imp (fun h => Nat.ne_of_lt h) h1
  have nd2 : l2.Nodup := List.Pairwise.imp (fun h => Nat.ne_of_lt h) h2
  exact List.eq_of_perm_of_sorted ((List.perm_ext_iff_of_nodup nd1 nd2).mpr hm) h1 h2

/-- Records equal after blanking siblings and with equal siblings are
equal. -/
theorem member_eq_of_eraseSib_sib {a b : Member} (h1 : eraseSib a = eraseSib b)
    (h2 : a.siblings = b.siblings) : a = b := by
  have ha : a = { eraseSib a with siblings := a.siblings } := rfl
  have hb : b = { eraseSib b with siblings := b.siblings } := rfl
  rw [ha, h1, h2, ← hb]

/-- C5: running sibling synchronization a second time changes nothing:
the pass is idempotent. -/
theorem sync_siblings_idempotent (fam : List Member) :
    sync_siblings_in_family (sync_siblings_in_family fam) =
      sync_siblings_in_family fam := by
  obtain ⟨hmap1, hg1⟩ := sync_siblings_strong fam
  obtain ⟨hmap2, hg2⟩ := sync_siblings_strong (sync_siblings_in_family fam)
  have hlen : (sync_siblings_in_family (sync_siblings_in_family fam)).length =
      (sync_siblings_in_family fam).length := by
    have h0 := congrArg List.length hmap2
    simpa using h0
  apply List.ext_getElem hlen
  intro k hk1 hk2
  have hme : eraseSib ((sync_siblings_in_family (sync_siblings_in_family fam))[k]) =
      eraseSib ((sync_siblings_in_family fam)[k]) := by
    have h0 := List.getElem_of_eq hmap2 (by simpa using hk1)
    simpa using h0
  have hid := eraseSib_id_eq hme
  have ha : (sync_siblings_in_family (sync_siblings_in_family fam))[k] ∈
      sync_siblings_in_family (sync_siblings_in_family fam) := List.getElem_mem hk1
  have hb : (sync_siblings_in_family fam)[k] ∈ sync_siblings_in_family fam :=
    List.getElem_mem hk2
  have g2 := hg2 _ ha
  have g1 := hg1 _ hb
  have hsib : ((sync_siblings_in_family (sync_siblings_in_family fam))[k]).siblings =
      ((sync_siblings_in_family fam)[k]).siblings := by
    refine sorted_lt_eq_of_iff g2.1 g1.1 (fun j => ?_)
    rw [g2.2 j, g1.2 j, hid, sibReach_sync_iff hmap1 hg1]
  exact member_eq_of_eraseSib_sib hme hsib
